import Mathlib

/-!
Shallow embedding of the IMC trading bot in `src/round1/squidward.py`
(class `Trader`, method `run`), together with proofs checking the
natural-language specification against it.

Modelling conventions.

Numbers: the Python code works with Python ints and floats; both are
modelled as exact rationals.  Order books map prices to quantities; the
quantities are never read by the code.

The persisted state (`state.traderData`) is a string that the code feeds to
`json.loads` / `json.dumps` from the Python standard library.  The `json`
module is not part of the repository's sources, so its behaviour here is
modelled from the spec: an object document whose keys are product
identifiers and whose values are ordered arrays of numbers, rendered with
the default separators and parsed back by a recursive-descent parser.
A successfully parsed document is an arbitrary JSON value; the tick's code
then manipulates it dynamically exactly as the Python does, and a dynamic
type error (for example calling `.append` on a parsed non-list value) is
modelled by the whole run returning `none` -- the Python run raising an
uncaught exception.

All recursive functions are either structurally recursive or recurse on an
explicit fuel argument, so every definition is executable.
-/

namespace Squidward

/-- JSON values, as produced by the Python `json` module: the persisted
state blob is an arbitrary JSON document until the tick's code touches it.
Numbers are exact rationals (a Python float is a binary rational; float
rounding is idealised away). -/
inductive JValue where
  | jnull
  | jbool (b : Bool)
  | jnum (q : ℚ)
  | jstr (s : String)
  | jarr (es : List JValue)
  | jobj (ms : List (String × JValue))

/-- Decimal digits of a natural number, least significant first, with a fuel
argument making the recursion structural.  `digitsAux fuel n` is the digit
list of `n` whenever `n ≤ fuel`. -/
def digitsAux : ℕ → ℕ → List ℕ
  | 0, _ => []
  | _ + 1, 0 => []
  | fuel + 1, n + 1 => ((n + 1) % 10) :: digitsAux fuel ((n + 1) / 10)

/-- Decimal digits of `n`, least significant first (`[]` for `0`). -/
def digits10 (n : ℕ) : List ℕ := digitsAux n n

/-- The character of one decimal digit. -/
def digitChar (d : ℕ) : Char := Char.ofNat (48 + d)

/-- Decimal rendering of a natural number, most significant digit first. -/
def printNatC (n : ℕ) : List Char :=
  if n = 0 then ['0'] else (digits10 n).reverse.map digitChar

/-- Left-pad a digit string with zeros to length `k`. -/
def padZeros (l : List Char) (k : ℕ) : List Char :=
  List.replicate (k - l.length) '0' ++ l

/-- Some exponent `k ≤ d` with `d ∣ 10 ^ k`, when one exists. -/
def pow10Exp (d : ℕ) : Option ℕ :=
  (List.range (d + 1)).find? fun k => decide (d ∣ 10 ^ k)

/-- A rational with a finite decimal expansion.  Every Python float is one,
so these are exactly the numbers the Python engine can put into its
serialized history.  (The denominator of such a rational is of the form
`2^a * 5^b`, and then it divides `10 ^ den`.) -/
def DecimalRepr (q : ℚ) : Prop := q.den ∣ 10 ^ q.den

instance (q : ℚ) : Decidable (DecimalRepr q) := by
  unfold DecimalRepr
  infer_instance

/-- Modelled from the spec: the JSON rendering of one number.  For a
rational with a finite decimal expansion this prints that expansion
exactly: optional sign, integer digits, and a fractional block when the
denominator is not 1.  (Python prints floats with a trailing `.0` and ints
without; the model prints integral values without, which round-trips the
same way.) -/
def printQ (q : ℚ) : List Char :=
  let n := q.num.natAbs
  let body :=
    match pow10Exp q.den with
    | some k =>
        let m := n * (10 ^ k / q.den)
        if k = 0 then printNatC m
        else printNatC (m / 10 ^ k) ++ '.' :: padZeros (printNatC (m % 10 ^ k)) k
    | none => printNatC n
  if q < 0 then '-' :: body else body

/-- JSON string escaping for one character (quote and backslash only; other
characters are emitted verbatim). -/
def escapeChar (c : Char) : List Char :=
  if c = '"' then ['\\', '"'] else if c = '\\' then ['\\', '\\'] else [c]

/-- JSON string escaping. -/
def escapeStr (s : String) : List Char :=
  s.data.foldr (fun c acc => escapeChar c ++ acc) []

/-- The opening curly brace character. -/
def lbrace : Char := Char.ofNat 123

/-- The closing curly brace character. -/
def rbrace : Char := Char.ofNat 125

/-- Comma-space separated concatenation: the Python default item separator
used by `json.dumps`. -/
def joinItems : List (List Char) → List Char
  | [] => []
  | [l] => l
  | l :: ls => l ++ ',' :: ' ' :: joinItems ls

mutual

/-- Modelled from the spec: `json.dumps`, in list-of-characters form, with
the Python default separators (a comma-space between items, a colon-space
after each key). -/
def printJ : JValue → List Char
  | .jnull => ['n', 'u', 'l', 'l']
  | .jbool b => if b then ['t', 'r', 'u', 'e'] else ['f', 'a', 'l', 's', 'e']
  | .jnum q => printQ q
  | .jstr s => '"' :: escapeStr s ++ ['"']
  | .jarr es => '[' :: printList es ++ [']']
  | .jobj ms => lbrace :: printMembers ms ++ [rbrace]
termination_by v => sizeOf v

/-- The printed form of the items of a JSON array. -/
def printList : List JValue → List Char
  | [] => []
  | [v] => printJ v
  | v :: vs => printJ v ++ ',' :: ' ' :: printList vs
termination_by es => sizeOf es

/-- The printed form of the members of a JSON object. -/
def printMembers : List (String × JValue) → List Char
  | [] => []
  | [(k, v)] => '"' :: escapeStr k ++ '"' :: ':' :: ' ' :: printJ v
  | (k, v) :: ms =>
      '"' :: escapeStr k ++ '"' :: ':' :: ' ' :: printJ v ++ ',' :: ' ' :: printMembers ms
termination_by ms => sizeOf ms

end

/-- Modelled from the spec: `json.dumps` as a string. -/
def json_dumps (v : JValue) : String := String.mk (printJ v)

/-- Python dict lookup on an insertion-ordered association list. -/
def lookupA {α : Type _} : List (String × α) → String → Option α
  | [], _ => none
  | (k, v) :: t, key => if k = key then some v else lookupA t key

/-- Python dict assignment `d[key] = v` on an insertion-ordered association
list: an existing key keeps its position and gets the new value, a new key
is appended at the end. -/
def storeA {α : Type _} : List (String × α) → String → α → List (String × α)
  | [], key, v => [(key, v)]
  | (k, w) :: t, key, v => if k = key then (key, v) :: t else (k, w) :: storeA t key v

/-- Parsed object members folded into a Python dict: a later duplicate key
overwrites the value while keeping the first position. -/
def dictOfMembers (ms : List (String × JValue)) : List (String × JValue) :=
  ms.foldl (fun d kv => storeA d kv.1 kv.2) []

/-- True for the four JSON whitespace characters. -/
def isWsC (c : Char) : Bool :=
  c == ' ' || c == '\n' || c == '\t' || c == '\r'

/-- Drop leading JSON whitespace. -/
def skipWs : List Char → List Char
  | [] => []
  | c :: t => if isWsC c then skipWs t else c :: t

/-- True for a decimal digit character. -/
def isDigitC (c : Char) : Bool := 48 ≤ c.toNat && c.toNat ≤ 57

/-- Numeric value of a digit character. -/
def toDigit (c : Char) : ℕ := c.toNat - 48

/-- Longest digit prefix of the input, and the remainder. -/
def spanDigits : List Char → List Char × List Char
  | [] => ([], [])
  | c :: t =>
      if isDigitC c then
        let s := spanDigits t
        (c :: s.1, s.2)
      else ([], c :: t)

/-- Value of a digit string, most significant digit first. -/
def natVal (l : List Char) : ℕ := l.foldl (fun a c => 10 * a + toDigit c) 0

/-- JSON string body parser, entered after the opening quote; structural in
the input, with a flag recording a pending backslash escape.  The unicode
escape form is not modelled. -/
def parseStrAux : List Char → List Char → Bool → Option (String × List Char)
  | [], _, _ => none
  | c :: t, acc, true =>
      if c = '"' then parseStrAux t ('"' :: acc) false
      else if c = '\\' then parseStrAux t ('\\' :: acc) false
      else if c = '/' then parseStrAux t ('/' :: acc) false
      else if c = 'n' then parseStrAux t ('\n' :: acc) false
      else if c = 't' then parseStrAux t ('\t' :: acc) false
      else if c = 'r' then parseStrAux t ('\r' :: acc) false
      else if c = 'b' then parseStrAux t (Char.ofNat 8 :: acc) false
      else if c = 'f' then parseStrAux t (Char.ofNat 12 :: acc) false
      else none
  | c :: t, acc, false =>
      if c = '"' then some (String.mk acc.reverse, t)
      else if c = '\\' then parseStrAux t acc true
      else parseStrAux t (c :: acc) false

/-- Optional fractional part of a JSON number: digits value, digit count,
remainder. -/
def parseFrac : List Char → Option (ℕ × ℕ × List Char)
  | [] => some (0, 0, [])
  | c :: t =>
      if c = '.' then
        let s := spanDigits t
        if s.1 = [] then none else some (natVal s.1, s.1.length, s.2)
      else some (0, 0, c :: t)

/-- Optional exponent part of a JSON number. -/
def parseExp : List Char → Option (ℤ × List Char)
  | [] => some (0, [])
  | c :: t =>
      if c = 'e' ∨ c = 'E' then
        match t with
        | '-' :: t2 =>
            (match spanDigits t2 with
             | ([], _) => none
             | (ds, r) => some (-(natVal ds : ℤ), r))
        | '+' :: t2 =>
            (match spanDigits t2 with
             | ([], _) => none
             | (ds, r) => some ((natVal ds : ℤ), r))
        | t2 =>
            (match spanDigits t2 with
             | ([], _) => none
             | (ds, r) => some ((natVal ds : ℤ), r))
      else some (0, c :: t)

/-- JSON number parser. -/
def parseNum (l : List Char) : Option (ℚ × List Char) :=
  let s : Bool × List Char :=
    match l with
    | [] => (false, [])
    | c :: t => if c = '-' then (true, t) else (false, c :: t)
  let sp := spanDigits s.2
  if sp.1 = [] then none
  else
    match parseFrac sp.2 with
    | none => none
    | some (fv, fk, l3) =>
        match parseExp l3 with
        | none => none
        | some (e, l4) =>
            let base : ℚ := (natVal sp.1 : ℚ) + (fv : ℚ) / 10 ^ fk
            some ((if s.1 then -base else base) * 10 ^ e, l4)

mutual

/-- Modelled from the spec: recursive-descent JSON value parser, indexed by
fuel so that the recursion is structural.  It accepts the language the
serializer above emits plus whitespace freedom; unicode escapes and the
non-standard NaN and Infinity literals are not modelled. -/
def parseVal : ℕ → List Char → Option (JValue × List Char)
  | 0, _ => none
  | fuel + 1, l =>
      match skipWs l with
      | [] => none
      | c :: r =>
          if c = 'n' then
            match r with
            | 'u' :: 'l' :: 'l' :: r2 => some (.jnull, r2)
            | _ => none
          else if c = 't' then
            match r with
            | 'r' :: 'u' :: 'e' :: r2 => some (.jbool true, r2)
            | _ => none
          else if c = 'f' then
            match r with
            | 'a' :: 'l' :: 's' :: 'e' :: r2 => some (.jbool false, r2)
            | _ => none
          else if c = '"' then (parseStrAux r [] false).map fun sr => (.jstr sr.1, sr.2)
          else if c = '[' then
            match skipWs r with
            | [] => none
            | c2 :: r2 =>
                if c2 = ']' then some (.jarr [], r2)
                else (parseElems fuel (c2 :: r2)).map fun er => (.jarr er.1, er.2)
          else if c = lbrace then
            match skipWs r with
            | [] => none
            | c2 :: r2 =>
                if c2 = rbrace then some (.jobj [], r2)
                else
                  (parseMembs fuel (c2 :: r2)).map fun mr =>
                    (.jobj (dictOfMembers mr.1), mr.2)
          else (parseNum (c :: r)).map fun qr => (.jnum qr.1, qr.2)

/-- One-or-more comma-separated array items, up to the closing bracket. -/
def parseElems : ℕ → List Char → Option (List JValue × List Char)
  | 0, _ => none
  | fuel + 1, l =>
      match parseVal fuel l with
      | none => none
      | some (v, r) =>
          match skipWs r with
          | [] => none
          | c :: r2 =>
              if c = ',' then (parseElems fuel r2).map fun er => (v :: er.1, er.2)
              else if c = ']' then some ([v], r2)
              else none

/-- One-or-more object members, up to the closing brace. -/
def parseMembs : ℕ → List Char → Option (List (String × JValue) × List Char)
  | 0, _ => none
  | fuel + 1, l =>
      match skipWs l with
      | [] => none
      | c :: r =>
          if c = '"' then
            match parseStrAux r [] false with
            | none => none
            | some (k, r1) =>
                match skipWs r1 with
                | [] => none
                | c2 :: r2 =>
                    if c2 = ':' then
                      match parseVal fuel r2 with
                      | none => none
                      | some (v, r3) =>
                          match skipWs r3 with
                          | [] => none
                          | c3 :: r4 =>
                              if c3 = ',' then
                                (parseMembs fuel r4).map fun mr => ((k, v) :: mr.1, mr.2)
                              else if c3 = rbrace then some ([(k, v)], r4)
                              else none
                    else none
          else none

end

/-- Modelled from the spec: `json.loads`; a `none` result is the model of a
Python `JSONDecodeError`. -/
def json_loads (s : String) : Option JValue :=
  match parseVal (s.data.length + 1) s.data with
  | some (v, r) => if skipWs r = [] then some v else none
  | none => none

/-- Modelled from the spec: one product's order book snapshot, two mappings
from price to quantity with keys in arbitrary order.  The quantities are
carried but never read by the engine. -/
structure OrderDepth where
  buy_orders : List (ℚ × ℚ)
  sell_orders : List (ℚ × ℚ)

/-- Modelled from the spec: one emitted order (product, price, signed
quantity; positive is a buy). -/
structure Order where
  symbol : String
  price : ℚ
  quantity : ℤ

/-- Modelled from the spec: the per-tick input, a snapshot mapping each
product to its order depth plus the persisted state blob. -/
structure TradingState where
  order_depths : List (String × OrderDepth)
  traderData : String

/-- Python `max` over the keys of a price map (meaningful only when the map
is non-empty). -/
def maxKey (l : List (ℚ × ℚ)) : ℚ :=
  match l with
  | [] => 0
  | x :: t => t.foldl (fun a y => max a y.1) x.1

/-- Python `min` over the keys of a price map (meaningful only when the map
is non-empty). -/
def minKey (l : List (ℚ × ℚ)) : ℚ :=
  match l with
  | [] => 0
  | x :: t => t.foldl (fun a y => min a y.1) x.1

/-- Lines 31 to 41 of `squidward.py`: the representative mid-price of one
product's book; the mean of best bid and best ask when both sides rest,
one side's best when only it rests, `none` (skip the product) when both
sides are empty. -/
def midPrice (d : OrderDepth) : Option ℚ :=
  if d.buy_orders ≠ [] ∧ d.sell_orders ≠ [] then
    some ((maxKey d.buy_orders + minKey d.sell_orders) / 2)
  else if d.buy_orders ≠ [] then some (maxKey d.buy_orders)
  else if d.sell_orders ≠ [] then some (minKey d.sell_orders)
  else none

/-- The numeric values of a slice of parsed history entries, as Python
`sum` consumes them.  A Python bool is an int (True is 1, False is 0), so a
JSON bool is numeric; any other non-number raises a TypeError inside
`sum`, modelled by `none`. -/
def numsOf (l : List JValue) : Option (List ℚ) :=
  l.mapM fun v =>
    match v with
    | JValue.jnum q => some q
    | JValue.jbool b => some (if b then 1 else 0)
    | _ => none

/-- The Python slice `l[-n:]`. -/
def lastN (l : List JValue) (n : ℕ) : List JValue := l.drop (l.length - n)

/-- One simple moving average: the mean of the last `n` history entries,
`none` when a non-numeric entry makes the Python `sum` raise. -/
def smaOf (l : List JValue) (n : ℕ) : Option ℚ :=
  (numsOf (lastN l n)).map fun xs => xs.sum / (n : ℚ)

/-- Lines 49 to 71 of `squidward.py`: the order list for one product given
its appended history `hist`.  With at least `long_window + 1 = 7` entries
the four SMAs are computed (short window 3 and long window 6, current and
one tick earlier; the Python slices `hist[-4:-1]` and `hist[-7:-1]` are the
last 3 and 6 entries of `hist` without its final element); a bullish
crossover (`sma_short_prev <= sma_long_prev` and `sma_short > sma_long`)
emits one buy order of quantity 10 at the best ask provided a sell order
rests.  `none` models the TypeError `sum` raises on a non-numeric entry. -/
def tickOrders (p : String) (depth : OrderDepth) (hist : List JValue) : Option (List Order) :=
  if 7 ≤ hist.length then
    match smaOf hist 3, smaOf hist 6, smaOf hist.dropLast 3, smaOf hist.dropLast 6 with
    | some ss, some sl, some ssp, some slp =>
        some
          (if ssp ≤ slp ∧ sl < ss then
            if depth.sell_orders ≠ [] then [⟨p, minKey depth.sell_orders, 10⟩] else []
          else [])
    | _, _, _, _ => none
  else some []

/-- One iteration of the product loop, lines 25 to 74 of `squidward.py`,
acting on the pair of the history dict and the result dict.  A product with
an empty book is skipped before the history is touched.  Otherwise the
history entry is created if absent, the mid-price is appended, and the
product's order list is stored in the result.  `none` models the uncaught
AttributeError of `.append` on a history value that is not a list, or a
TypeError from inside the SMA sums. -/
def procOne (st : List (String × JValue) × List (String × List Order))
    (pd : String × OrderDepth) :
    Option (List (String × JValue) × List (String × List Order)) :=
  match midPrice pd.2 with
  | none => some st
  | some mid =>
      let m1 := if (lookupA st.1 pd.1).isSome then st.1 else storeA st.1 pd.1 (JValue.jarr [])
      match lookupA m1 pd.1 with
      | some (JValue.jarr l) =>
          let hist := l ++ [JValue.jnum mid]
          (tickOrders pd.1 pd.2 hist).map fun orders =>
            (storeA m1 pd.1 (JValue.jarr hist), storeA st.2 pd.1 orders)
      | _ => none

/-- The product loop of `Trader.run`, folded over the snapshot in
iteration order. -/
def runList (st : List (String × JValue) × List (String × List Order)) :
    List (String × OrderDepth) →
    Option (List (String × JValue) × List (String × List Order))
  | [] => some st
  | pd :: rest =>
      match procOne st pd with
      | none => none
      | some st2 => runList st2 rest

/-- Lines 18 to 22 of `squidward.py`: recover the persisted state.  An
empty (falsy) string skips parsing, and a parse failure is caught and
replaced by the empty dict; any successfully parsed JSON value is kept as
is. -/
def initTop (td : String) : JValue :=
  if td = "" then JValue.jobj []
  else
    match json_loads td with
    | some v => v
    | none => JValue.jobj []

/-- The method `Trader.run` of `squidward.py`: from the snapshot and the
persisted blob produce the per-product order lists, the conversion constant
1, and the re-serialized history.  A `none` result models the run raising
an uncaught exception.  When the recovered state is a JSON value other
than an object, the first product with a derivable mid-price raises a
TypeError at the history accesses (`in`, item assignment, or item lookup on
a non-dict), so such a run aborts exactly when a product with a derivable
mid-price exists; with no such product the loop only skips and the
untouched value is re-serialized. -/
def run (state : TradingState) :
    Option (List (String × List Order) × ℤ × String) :=
  match initTop state.traderData with
  | JValue.jobj m =>
      (match runList (m, []) state.order_depths with
       | some (m2, res) => some (res, 1, json_dumps (JValue.jobj m2))
       | none => none)
  | v =>
      if state.order_depths.any fun pd => (midPrice pd.2).isSome then none
      else some ([], 1, json_dumps v)

/-- The history list a parsed state holds for product `p` (empty when the
key is absent; the engine only reaches this through list-shaped values). -/
def histOf (m : List (String × JValue)) (p : String) : List JValue :=
  match lookupA m p with
  | some (JValue.jarr l) => l
  | _ => []

/-- A parsed state of the expected schema: every history value is a JSON
array of numbers. -/
def SchemaOK (m : List (String × JValue)) : Prop :=
  ∀ kv ∈ m, ∃ l : List ℚ, kv.2 = JValue.jarr (l.map JValue.jnum)

/-- Little-endian valuation of a decimal digit list. -/
def ofD (ds : List ℕ) : ℕ := ds.foldr (fun d a => d + 10 * a) 0

/-- The input does not continue with a digit. -/
def noDigitHead : List Char → Prop
  | [] => True
  | c :: _ => isDigitC c = false

/-- The input cannot extend a just-parsed number: no digit, no decimal
point, no exponent marker. -/
def numStop : List Char → Prop
  | [] => True
  | c :: _ => isDigitC c = false ∧ c ≠ '.' ∧ c ≠ 'e' ∧ c ≠ 'E'

/-- A history mapping as the JSON object value the engine serializes. -/
def histToJ (h : List (String × List ℚ)) : List (String × JValue) :=
  h.map fun kv => (kv.1, JValue.jarr (kv.2.map JValue.jnum))

/-- Parser fuel sufficient for a serialized history mapping. -/
def histFuel : List (String × List ℚ) → ℕ
  | [] => 0
  | (_, qs) :: t => qs.length + 3 + histFuel t

/-- A concrete two-sided book: best bid 10, best ask 12, mid-price 11. -/
def bookBoth : OrderDepth := ⟨[(10, 5)], [(12, 3)]⟩

/-- A concrete two-sided book: best bid 14, best ask 18, mid-price 16. -/
def bookCross : OrderDepth := ⟨[(14, 5)], [(18, 3)]⟩

/-- A concrete buy-only book: mid-price 16, no sell orders. -/
def bookBuyOnly : OrderDepth := ⟨[(16, 5)], []⟩

/-- A concrete book with no resting interest on either side. -/
def bookEmpty : OrderDepth := ⟨[], []⟩

/-- A persisted state holding six mid-prices of 10 for product A. -/
def tdSix : String := "\x7b\"A\": [10, 10, 10, 10, 10, 10]\x7d"

/-- A persisted state that parses but has a number, not a list, as the
history of product A. -/
def tdBad : String := "\x7b\"A\": 0\x7d"

/-- A parsed state mapping product A to six mid-prices of 10. -/
def mSix : List (String × JValue) :=
  [("A", JValue.jarr (([10, 10, 10, 10, 10, 10] : List ℚ).map JValue.jnum))]

/-- The state of `mSix` after a tick appends mid-price 16 for product A. -/
def m2Six : List (String × JValue) :=
  [("A", JValue.jarr (([10, 10, 10, 10, 10, 10, 16] : List ℚ).map JValue.jnum))]

/-- The result of the firing tick: one buy order for A at ask 18, size 10. -/
def rSix : List (String × List Order) := [("A", [⟨"A", 18, 10⟩])]

/-- The six-tens state as the engine itself would serialize it. -/
def tdSixD : String := json_dumps (JValue.jobj mSix)

theorem lookupA_storeA_self {α : Type _} (m : List (String × α)) (k : String) (v : α) :
    lookupA (storeA m k v) k = some v := by
  induction m with
  | nil => simp [storeA, lookupA]
  | cons kv t ih =>
      obtain ⟨k2, w⟩ := kv
      by_cases h : k2 = k <;> simp [storeA, lookupA, h, ih]

theorem lookupA_storeA_ne {α : Type _} (m : List (String × α)) (key k : String) (v : α)
    (h : k ≠ key) : lookupA (storeA m key v) k = lookupA m k := by
  have h2 : ¬key = k := fun hh => h hh.symm
  induction m with
  | nil => simp [storeA, lookupA, h2]
  | cons kv t ih =>
      obtain ⟨k2, w⟩ := kv
      by_cases hk : k2 = key
      · subst hk
        simp [storeA, lookupA, h2]
      · simp [storeA, lookupA, hk, ih]

theorem storeA_storeA {α : Type _} (m : List (String × α)) (k : String) (v w : α) :
    storeA (storeA m k v) k w = storeA m k w := by
  induction m with
  | nil => simp [storeA]
  | cons kv t ih =>
      obtain ⟨k2, u⟩ := kv
      by_cases hk : k2 = k
      · subst hk
        simp [storeA]
      · simp [storeA, hk, ih]

theorem histOf_congr (m1 m2 : List (String × JValue)) (p : String)
    (h : lookupA m1 p = lookupA m2 p) : histOf m1 p = histOf m2 p := by
  unfold histOf
  rw [h]

theorem procOne_skip (st : List (String × JValue) × List (String × List Order))
    (pd : String × OrderDepth) (h : midPrice pd.2 = none) : procOne st pd = some st := by
  simp [procOne, h]

theorem procOne_eq (st : List (String × JValue) × List (String × List Order))
    (pd : String × OrderDepth) (mid : ℚ)
    (hmid : midPrice pd.2 = some mid)
    (hshape : lookupA st.1 pd.1 = none ∨
      ∃ l, lookupA st.1 pd.1 = some (JValue.jarr l)) :
    procOne st pd =
      (tickOrders pd.1 pd.2 (histOf st.1 pd.1 ++ [JValue.jnum mid])).map fun orders =>
        (storeA st.1 pd.1 (JValue.jarr (histOf st.1 pd.1 ++ [JValue.jnum mid])),
          storeA st.2 pd.1 orders) := by
  unfold procOne
  rw [hmid]
  rcases hshape with hl | ⟨l, hl⟩
  · have hhist : histOf st.1 pd.1 = [] := by unfold histOf; rw [hl]
    simp only [hl, Option.isSome_none, Bool.false_eq_true, if_false,
      lookupA_storeA_self, storeA_storeA, hhist]
  · have hhist : histOf st.1 pd.1 = l := by unfold histOf; rw [hl]
    simp only [hl, Option.isSome_some, if_true, hhist]

theorem procOne_bad (st : List (String × JValue) × List (String × List Order))
    (pd : String × OrderDepth) (mid : ℚ) (v : JValue)
    (hmid : midPrice pd.2 = some mid)
    (hl : lookupA st.1 pd.1 = some v) (hv : ∀ l, v ≠ JValue.jarr l) :
    procOne st pd = none := by
  unfold procOne
  rw [hmid]
  simp only [hl, Option.isSome_some, if_true]
  cases v with
  | jarr l => exact absurd rfl (hv l)
  | jnull => rfl
  | jbool b => rfl
  | jnum q => rfl
  | jstr s => rfl
  | jobj ms => rfl

theorem procOne_other (st st2 : List (String × JValue) × List (String × List Order))
    (pd : String × OrderDepth) (q : String)
    (h : procOne st pd = some st2) (hne : pd.1 ≠ q) :
    lookupA st2.1 q = lookupA st.1 q ∧ lookupA st2.2 q = lookupA st.2 q := by
  have hne2 : q ≠ pd.1 := fun hh => hne hh.symm
  cases hm : midPrice pd.2 with
  | none =>
      rw [procOne_skip st pd hm] at h
      cases h
      exact ⟨rfl, rfl⟩
  | some mid =>
      have hshape : lookupA st.1 pd.1 = none ∨
          ∃ l, lookupA st.1 pd.1 = some (JValue.jarr l) := by
        cases hl : lookupA st.1 pd.1 with
        | none => exact Or.inl rfl
        | some v =>
            cases v with
            | jarr l => exact Or.inr ⟨l, rfl⟩
            | jnull => rw [procOne_bad st pd mid _ hm hl (by intro l h2; cases h2)] at h; cases h
            | jbool b => rw [procOne_bad st pd mid _ hm hl (by intro l h2; cases h2)] at h; cases h
            | jnum q2 => rw [procOne_bad st pd mid _ hm hl (by intro l h2; cases h2)] at h; cases h
            | jstr s => rw [procOne_bad st pd mid _ hm hl (by intro l h2; cases h2)] at h; cases h
            | jobj ms => rw [procOne_bad st pd mid _ hm hl (by intro l h2; cases h2)] at h; cases h
      rw [procOne_eq st pd mid hm hshape] at h
      rcases Option.map_eq_some'.mp h with ⟨orders, hto, hst⟩
      subst hst
      exact ⟨lookupA_storeA_ne _ _ _ _ hne2, lookupA_storeA_ne _ _ _ _ hne2⟩

theorem runList_append (st : List (String × JValue) × List (String × List Order))
    (ds1 ds2 : List (String × OrderDepth)) :
    runList st (ds1 ++ ds2) = (runList st ds1).bind fun st1 => runList st1 ds2 := by
  induction ds1 generalizing st with
  | nil => simp [runList]
  | cons pd t ih =>
      simp only [List.cons_append, runList]
      cases procOne st pd with
      | none => rfl
      | some st2 => exact ih st2

theorem runList_cons (st : List (String × JValue) × List (String × List Order))
    (pd : String × OrderDepth) (rest : List (String × OrderDepth)) :
    runList st (pd :: rest) =
      match procOne st pd with
      | none => none
      | some st2 => runList st2 rest := rfl

theorem runList_frame (ds : List (String × OrderDepth))
    (st st2 : List (String × JValue) × List (String × List Order)) (p : String)
    (hskip : ∀ dp, (p, dp) ∈ ds → midPrice dp = none)
    (hrl : runList st ds = some st2) :
    lookupA st2.1 p = lookupA st.1 p ∧ lookupA st2.2 p = lookupA st.2 p := by
  induction ds generalizing st with
  | nil =>
      cases hrl
      exact ⟨rfl, rfl⟩
  | cons pd t ih =>
      rw [runList_cons] at hrl
      cases hp : procOne st pd with
      | none => rw [hp] at hrl; cases hrl
      | some st1 =>
          rw [hp] at hrl
          have hrest := ih st1 (fun dp hm => hskip dp (List.mem_cons_of_mem _ hm)) hrl
          by_cases hq : pd.1 = p
          · obtain ⟨p1, dp1⟩ := pd
            cases hq
            rw [procOne_skip _ _ (hskip dp1 (List.mem_cons_self _ _))] at hp
            cases hp
            exact hrest
          · have hstep := procOne_other st st1 pd p hp hq
            exact ⟨hrest.1.trans hstep.1, hrest.2.trans hstep.2⟩

theorem procOne_at (st : List (String × JValue) × List (String × List Order))
    (p : String) (dp : OrderDepth) (mid : ℚ)
    (st2 : List (String × JValue) × List (String × List Order))
    (hmid : midPrice dp = some mid)
    (h : procOne st (p, dp) = some st2) :
    ∃ orders, tickOrders p dp (histOf st.1 p ++ [JValue.jnum mid]) = some orders ∧
      lookupA st2.1 p = some (JValue.jarr (histOf st.1 p ++ [JValue.jnum mid])) ∧
      lookupA st2.2 p = some orders := by
  have hshape : lookupA st.1 p = none ∨
      ∃ l, lookupA st.1 p = some (JValue.jarr l) := by
    cases hl : lookupA st.1 p with
    | none => exact Or.inl rfl
    | some v =>
        cases v with
        | jarr l => exact Or.inr ⟨l, rfl⟩
        | jnull => rw [procOne_bad st (p, dp) mid _ hmid hl (by intro l h2; cases h2)] at h; cases h
        | jbool b => rw [procOne_bad st (p, dp) mid _ hmid hl (by intro l h2; cases h2)] at h; cases h
        | jnum q2 => rw [procOne_bad st (p, dp) mid _ hmid hl (by intro l h2; cases h2)] at h; cases h
        | jstr s => rw [procOne_bad st (p, dp) mid _ hmid hl (by intro l h2; cases h2)] at h; cases h
        | jobj ms => rw [procOne_bad st (p, dp) mid _ hmid hl (by intro l h2; cases h2)] at h; cases h
  rw [procOne_eq st (p, dp) mid hmid hshape] at h
  rcases Option.map_eq_some'.mp h with ⟨orders, hto, hst⟩
  subst hst
  exact ⟨orders, hto, by simp [lookupA_storeA_self], by simp [lookupA_storeA_self]⟩

theorem nodup_key_unique {α : Type _} (ds : List (String × α))
    (hnd : (ds.map Prod.fst).Nodup) (p : String) (a b : α)
    (ha : (p, a) ∈ ds) (hb : (p, b) ∈ ds) : a = b := by
  induction ds with
  | nil => cases ha
  | cons kv t ih =>
      obtain ⟨k, w⟩ := kv
      simp only [List.map_cons, List.nodup_cons] at hnd
      rcases List.mem_cons.mp ha with ha1 | ha1 <;> rcases List.mem_cons.mp hb with hb1 | hb1
      · rw [Prod.mk.injEq] at ha1 hb1
        rw [ha1.2, hb1.2]
      · exfalso
        rw [Prod.mk.injEq] at ha1
        apply hnd.1
        rw [← ha1.1]
        exact List.mem_map_of_mem Prod.fst hb1
      · exfalso
        rw [Prod.mk.injEq] at hb1
        apply hnd.1
        rw [← hb1.1]
        exact List.mem_map_of_mem Prod.fst ha1
      · exact ih hnd.2 ha1 hb1

theorem runList_char (ds : List (String × OrderDepth))
    (m m2 : List (String × JValue)) (r : List (String × List Order))
    (p : String) (dp : OrderDepth) (mid : ℚ)
    (hnd : (ds.map Prod.fst).Nodup)
    (hmem : (p, dp) ∈ ds)
    (hmid : midPrice dp = some mid)
    (hrl : runList (m, []) ds = some (m2, r)) :
    ∃ orders, tickOrders p dp (histOf m p ++ [JValue.jnum mid]) = some orders ∧
      lookupA r p = some orders ∧
      lookupA m2 p = some (JValue.jarr (histOf m p ++ [JValue.jnum mid])) := by
  rcases List.append_of_mem hmem with ⟨ds1, ds2, rfl⟩
  have hmap : ((ds1 ++ (p, dp) :: ds2).map Prod.fst)
      = ds1.map Prod.fst ++ p :: ds2.map Prod.fst := by simp
  rw [hmap] at hnd
  rcases List.nodup_append.mp hnd with ⟨hnd1, hnd2, hdisj⟩
  have hp1 : p ∉ ds1.map Prod.fst := fun hin => hdisj hin (List.mem_cons_self _ _)
  have hp2 : p ∉ ds2.map Prod.fst := (List.nodup_cons.mp hnd2).1
  rw [runList_append] at hrl
  cases h1 : runList (m, []) ds1 with
  | none => rw [h1] at hrl; cases hrl
  | some st1 =>
      rw [h1] at hrl
      rw [Option.some_bind, runList_cons] at hrl
      have hfr1 := runList_frame ds1 (m, []) st1 p
        (fun dp2 hm => absurd (List.mem_map_of_mem Prod.fst hm) hp1) h1
      cases hp : procOne st1 (p, dp) with
      | none => rw [hp] at hrl; cases hrl
      | some stm =>
          rw [hp] at hrl
          rcases procOne_at st1 p dp mid stm hmid hp with ⟨orders, hto, hm2, hr2⟩
          have hfr2 := runList_frame ds2 stm (m2, r) p
            (fun dp2 hm => absurd (List.mem_map_of_mem Prod.fst hm) hp2) hrl
          have hhist : histOf st1.1 p = histOf m p := histOf_congr _ _ _ hfr1.1
          rw [hhist] at hto hm2
          exact ⟨orders, hto, hfr2.2.trans hr2, hfr2.1.trans hm2⟩

theorem lookupA_mem {α : Type _} (m : List (String × α)) (k : String) (v : α)
    (h : lookupA m k = some v) : (k, v) ∈ m := by
  induction m with
  | nil => cases h
  | cons kv t ih =>
      obtain ⟨k2, w⟩ := kv
      by_cases hk : k2 = k
      · subst hk
        simp only [lookupA, if_true, eq_self_iff_true, Option.some.injEq] at h
        subst h
        exact List.mem_cons_self _ _
      · simp only [lookupA, if_neg hk] at h
        exact List.mem_cons_of_mem _ (ih h)

theorem mem_storeA {α : Type _} (m : List (String × α)) (k : String) (v : α)
    (kv : String × α) (h : kv ∈ storeA m k v) : kv ∈ m ∨ kv = (k, v) := by
  induction m with
  | nil =>
      simp only [storeA, List.mem_singleton] at h
      exact Or.inr h
  | cons kw t ih =>
      obtain ⟨k2, w⟩ := kw
      by_cases hk : k2 = k
      · subst hk
        simp only [storeA, if_true, eq_self_iff_true, List.mem_cons] at h
        rcases h with h | h
        · exact Or.inr h
        · exact Or.inl (List.mem_cons_of_mem _ h)
      · simp only [storeA, if_neg hk, List.mem_cons] at h
        rcases h with h | h
        · exact Or.inl (List.mem_cons.mpr (Or.inl h))
        · rcases ih h with h2 | h2
          · exact Or.inl (List.mem_cons_of_mem _ h2)
          · exact Or.inr h2

theorem numsOf_map_jnum (xs : List ℚ) : numsOf (xs.map JValue.jnum) = some xs := by
  induction xs with
  | nil => rfl
  | cons q t ih =>
      unfold numsOf at ih ⊢
      simp only [List.map_cons, List.mapM_cons, ih]
      rfl

theorem dropLast_map_jnum (xs : List ℚ) :
    (xs.map JValue.jnum).dropLast = xs.dropLast.map JValue.jnum := by
  induction xs with
  | nil => rfl
  | cons q t ih =>
      cases t with
      | nil => rfl
      | cons q2 t2 => simp only [List.map_cons, List.dropLast_cons₂, ← ih, List.map_cons]

theorem smaOf_map_jnum (xs : List ℚ) (n : ℕ) :
    smaOf (xs.map JValue.jnum) n = some ((xs.drop (xs.length - n)).sum / (n : ℚ)) := by
  unfold smaOf lastN
  rw [List.length_map, ← List.map_drop, numsOf_map_jnum]
  rfl

theorem tickOrders_of_schema (p : String) (dp : OrderDepth) (xs : List ℚ) :
    ∃ o, tickOrders p dp (xs.map JValue.jnum) = some o := by
  unfold tickOrders
  by_cases h : 7 ≤ (xs.map JValue.jnum).length
  · rw [if_pos h, smaOf_map_jnum, smaOf_map_jnum, dropLast_map_jnum,
      smaOf_map_jnum, smaOf_map_jnum]
    exact ⟨_, rfl⟩
  · rw [if_neg h]
    exact ⟨[], rfl⟩

theorem procOne_total (st : List (String × JValue) × List (String × List Order))
    (pd : String × OrderDepth) (hs : SchemaOK st.1) :
    ∃ st2, procOne st pd = some st2 ∧ SchemaOK st2.1 := by
  cases hm : midPrice pd.2 with
  | none => exact ⟨st, procOne_skip st pd hm, hs⟩
  | some mid =>
      cases hl : lookupA st.1 pd.1 with
      | none =>
          have hhist : histOf st.1 pd.1 = [] := by unfold histOf; rw [hl]
          have heq := procOne_eq st pd mid hm (Or.inl hl)
          rw [hhist] at heq
          have hmap : ([] : List JValue) ++ [JValue.jnum mid] = [mid].map JValue.jnum := rfl
          rw [hmap] at heq
          rcases tickOrders_of_schema pd.1 pd.2 [mid] with ⟨o, ho⟩
          rw [ho] at heq
          refine ⟨_, heq, ?_⟩
          intro kv hkv
          rcases mem_storeA _ _ _ _ hkv with h2 | h2
          · exact hs kv h2
          · exact ⟨[mid], by rw [h2]⟩
      | some v =>
          rcases hs _ (lookupA_mem _ _ _ hl) with ⟨l, hv⟩
          simp only at hv
          subst hv
          have hhist : histOf st.1 pd.1 = l.map JValue.jnum := by unfold histOf; rw [hl]
          have heq := procOne_eq st pd mid hm (Or.inr ⟨_, hl⟩)
          rw [hhist] at heq
          have hmap : l.map JValue.jnum ++ [JValue.jnum mid] = (l ++ [mid]).map JValue.jnum := by
            simp
          rw [hmap] at heq
          rcases tickOrders_of_schema pd.1 pd.2 (l ++ [mid]) with ⟨o, ho⟩
          rw [ho] at heq
          refine ⟨_, heq, ?_⟩
          intro kv hkv
          rcases mem_storeA _ _ _ _ hkv with h2 | h2
          · exact hs kv h2
          · exact ⟨l ++ [mid], by rw [h2]⟩

theorem runList_total (ds : List (String × OrderDepth))
    (st : List (String × JValue) × List (String × List Order)) (hs : SchemaOK st.1) :
    ∃ st2, runList st ds = some st2 ∧ SchemaOK st2.1 := by
  induction ds generalizing st with
  | nil => exact ⟨st, rfl, hs⟩
  | cons pd t ih =>
      rcases procOne_total st pd hs with ⟨st1, hp, hs1⟩
      rcases ih st1 hs1 with ⟨st2, hr, hs2⟩
      refine ⟨st2, ?_, hs2⟩
      rw [runList_cons, hp]
      exact hr

theorem tickOrders_eval (p : String) (dp : OrderDepth) (hist : List JValue)
    (ss sl ssp slp : ℚ)
    (hlen : 7 ≤ hist.length)
    (h1 : smaOf hist 3 = some ss) (h2 : smaOf hist 6 = some sl)
    (h3 : smaOf hist.dropLast 3 = some ssp) (h4 : smaOf hist.dropLast 6 = some slp) :
    tickOrders p dp hist =
      some (if ssp ≤ slp ∧ sl < ss then
        if dp.sell_orders ≠ [] then [⟨p, minKey dp.sell_orders, 10⟩] else []
      else []) := by
  unfold tickOrders
  rw [if_pos hlen, h1, h2, h3, h4]

theorem midPrice_none_of_empty (d : OrderDepth)
    (h1 : d.buy_orders = []) (h2 : d.sell_orders = []) : midPrice d = none := by
  simp [midPrice, h1, h2]

/-- C10: whenever `Trader.run` returns, the second component of the
returned triple, the conversion factor, is the integer 1; this holds for
every snapshot and every persisted-state string. -/
theorem conversions_always_one (state : TradingState)
    (out : List (String × List Order) × ℤ × String)
    (h : run state = some out) : out.2.1 = 1 := by
  unfold run at h
  split at h
  · split at h
    · cases h
      rfl
    · cases h
  · split at h
    · cases h
    · cases h
      rfl

/-- C4: a persisted-state string that is empty or fails to parse recovers
silently to the empty history: the run returns exactly the same triple as
the run with an empty persisted-state string on the same snapshot, and the
latter run never raises. -/
theorem malformed_state_recovery (depths : List (String × OrderDepth)) (td : String)
    (h : td = "" ∨ json_loads td = none) :
    run ⟨depths, td⟩ = run ⟨depths, ""⟩ ∧ (run ⟨depths, ""⟩).isSome := by
  have h2 : initTop "" = JValue.jobj [] := by
    unfold initTop
    rw [if_pos rfl]
  have hfresh : (run ⟨depths, ""⟩).isSome := by
    rcases runList_total depths ([], [])
      (fun kv hkv => absurd hkv (List.not_mem_nil kv)) with ⟨⟨m2, res⟩, hrl, _⟩
    simp only [run, h2, hrl, Option.isSome_some]
  refine ⟨?_, hfresh⟩
  rcases h with rfl | h
  · rfl
  · have h1 : initTop td = JValue.jobj [] := by
      unfold initTop
      by_cases he : td = ""
      · rw [if_pos he]
      · rw [if_neg he, h]
    simp only [run, h1, h2]

/-- C2: the derived mid-price is the mean of best bid and best ask when
both book sides rest, the best bid when only bids rest, the best ask when
only asks rest; and a product whose book is empty on both sides is skipped
entirely: its history is untouched and the result mapping has no key for
it. -/
theorem midprice_derivation_and_skip :
    (∀ d : OrderDepth, d.buy_orders ≠ [] → d.sell_orders ≠ [] →
      midPrice d = some ((maxKey d.buy_orders + minKey d.sell_orders) / 2)) ∧
    (∀ d : OrderDepth, d.buy_orders ≠ [] → d.sell_orders = [] →
      midPrice d = some (maxKey d.buy_orders)) ∧
    (∀ d : OrderDepth, d.buy_orders = [] → d.sell_orders ≠ [] →
      midPrice d = some (minKey d.sell_orders)) ∧
    (∀ (ds : List (String × OrderDepth)) (td : String)
      (m m2 : List (String × JValue)) (r : List (String × List Order))
      (p : String) (dp : OrderDepth),
      initTop td = JValue.jobj m →
      (ds.map Prod.fst).Nodup →
      (p, dp) ∈ ds →
      dp.buy_orders = [] → dp.sell_orders = [] →
      runList (m, []) ds = some (m2, r) →
      lookupA r p = none ∧ lookupA m2 p = lookupA m p ∧
        run ⟨ds, td⟩ = some (r, 1, json_dumps (JValue.jobj m2))) := by
  refine ⟨?_, ?_, ?_, ?_⟩
  · intro d h1 h2
    simp [midPrice, h1, h2]
  · intro d h1 h2
    simp [midPrice, h1, h2]
  · intro d h1 h2
    simp [midPrice, h1, h2]
  · intro ds td m m2 r p dp hobj hnd hmem hb hs hrl
    have hskip : ∀ dp2, (p, dp2) ∈ ds → midPrice dp2 = none := by
      intro dp2 h2
      rw [nodup_key_unique ds hnd p dp2 dp h2 hmem]
      exact midPrice_none_of_empty dp hb hs
    have hfr := runList_frame ds (m, []) (m2, r) p hskip hrl
    refine ⟨hfr.2, hfr.1, ?_⟩
    simp only [run, hobj, hrl]

/-- C3: after a successfully parsed incoming state, a product of the
snapshot with a derivable mid-price ends the tick with its history equal to
the old sequence plus that one appended value (so the length grows by
exactly one, nothing is truncated or reordered), a product with no
derivable mid-price keeps its history entry unchanged, a product absent
from the snapshot keeps its history entry unchanged, and that final
mapping is exactly what the run serializes into the returned state. -/
theorem history_growth_invariant (ds : List (String × OrderDepth)) (td : String)
    (m m2 : List (String × JValue)) (r : List (String × List Order))
    (hobj : initTop td = JValue.jobj m)
    (hnd : (ds.map Prod.fst).Nodup)
    (hrl : runList (m, []) ds = some (m2, r)) :
    (∀ p dp mid, (p, dp) ∈ ds → midPrice dp = some mid →
      lookupA m2 p = some (JValue.jarr (histOf m p ++ [JValue.jnum mid])) ∧
      (histOf m p ++ [JValue.jnum mid]).length = (histOf m p).length + 1) ∧
    (∀ p dp, (p, dp) ∈ ds → midPrice dp = none → lookupA m2 p = lookupA m p) ∧
    (∀ p, p ∉ ds.map Prod.fst → lookupA m2 p = lookupA m p) ∧
    run ⟨ds, td⟩ = some (r, 1, json_dumps (JValue.jobj m2)) := by
  refine ⟨?_, ?_, ?_, ?_⟩
  · intro p dp mid hmem hmid
    rcases runList_char ds m m2 r p dp mid hnd hmem hmid hrl with ⟨o, _, _, hm⟩
    exact ⟨hm, by simp⟩
  · intro p dp hmem hmid
    have hskip : ∀ dp2, (p, dp2) ∈ ds → midPrice dp2 = none := by
      intro dp2 h2
      rw [nodup_key_unique ds hnd p dp2 dp h2 hmem]
      exact hmid
    exact (runList_frame ds (m, []) (m2, r) p hskip hrl).1
  · intro p hp
    have hskip : ∀ dp2, (p, dp2) ∈ ds → midPrice dp2 = none := by
      intro dp2 h2
      exact absurd (List.mem_map_of_mem Prod.fst h2) hp
    exact (runList_frame ds (m, []) (m2, r) p hskip hrl).1
  · simp only [run, hobj, hrl]

/-- C1: for a product with at least `long_window + 1 = 7` recorded
mid-prices after this tick's append, the product's result entry is exactly
one buy order (product, best ask, quantity 10) precisely when the
crossover condition `sma_short_prev <= sma_long_prev` and
`sma_short > sma_long` holds and a sell order rests, and the empty order
list in every other case. -/
theorem sma_crossover_order_characterization
    (ds : List (String × OrderDepth)) (td : String)
    (m m2 : List (String × JValue)) (r : List (String × List Order))
    (p : String) (dp : OrderDepth) (mid ss sl ssp slp : ℚ)
    (hobj : initTop td = JValue.jobj m)
    (hnd : (ds.map Prod.fst).Nodup)
    (hmem : (p, dp) ∈ ds)
    (hmid : midPrice dp = some mid)
    (hrl : runList (m, []) ds = some (m2, r))
    (hlen : 7 ≤ (histOf m p ++ [JValue.jnum mid]).length)
    (hss : smaOf (histOf m p ++ [JValue.jnum mid]) 3 = some ss)
    (hsl : smaOf (histOf m p ++ [JValue.jnum mid]) 6 = some sl)
    (hssp : smaOf (histOf m p ++ [JValue.jnum mid]).dropLast 3 = some ssp)
    (hslp : smaOf (histOf m p ++ [JValue.jnum mid]).dropLast 6 = some slp) :
    lookupA r p =
      some (if ssp ≤ slp ∧ sl < ss then
        if dp.sell_orders ≠ [] then [⟨p, minKey dp.sell_orders, 10⟩] else []
      else []) ∧
    run ⟨ds, td⟩ = some (r, 1, json_dumps (JValue.jobj m2)) := by
  rcases runList_char ds m m2 r p dp mid hnd hmem hmid hrl with ⟨orders, hto, hr, _⟩
  rw [tickOrders_eval p dp _ ss sl ssp slp hlen hss hsl hssp hslp] at hto
  cases hto
  refine ⟨hr, ?_⟩
  simp only [run, hobj, hrl]

/-- C6: a product whose parsed history is six 10s and whose snapshot
yields mid-price 16 this tick fires, provided sell orders rest: the run
emits exactly one buy order for that product at the minimum sell-order
key with quantity 10. -/
theorem literal_crossover_scenario_fires
    (ds : List (String × OrderDepth)) (td : String)
    (m m2 : List (String × JValue)) (r : List (String × List Order))
    (p : String) (dp : OrderDepth)
    (hobj : initTop td = JValue.jobj m)
    (hnd : (ds.map Prod.fst).Nodup)
    (hmem : (p, dp) ∈ ds)
    (hhist : histOf m p = [JValue.jnum 10, JValue.jnum 10, JValue.jnum 10,
      JValue.jnum 10, JValue.jnum 10, JValue.jnum 10])
    (hmid : midPrice dp = some 16)
    (hsell : dp.sell_orders ≠ [])
    (hrl : runList (m, []) ds = some (m2, r)) :
    lookupA r p = some [⟨p, minKey dp.sell_orders, 10⟩] := by
  rcases runList_char ds m m2 r p dp 16 hnd hmem hmid hrl with ⟨orders, hto, hr, _⟩
  rw [hhist] at hto
  have hconc : [JValue.jnum 10, JValue.jnum 10, JValue.jnum 10,
      JValue.jnum 10, JValue.jnum 10, JValue.jnum 10] ++ [JValue.jnum 16] =
      ([10, 10, 10, 10, 10, 10, 16] : List ℚ).map JValue.jnum := rfl
  rw [hconc] at hto
  have hev : tickOrders p dp (([10, 10, 10, 10, 10, 10, 16] : List ℚ).map JValue.jnum) =
      some [⟨p, minKey dp.sell_orders, 10⟩] := by
    rw [tickOrders_eval p dp _ 12 11 10 10]
    · rw [if_pos (by norm_num : (10 : ℚ) ≤ 10 ∧ (11 : ℚ) < 12), if_pos hsell]
    · rw [List.length_map]
      norm_num
    · rw [smaOf_map_jnum]
      show some (([10, 10, 16] : List ℚ).sum / (3 : ℕ)) = some 12
      norm_num [List.sum_cons, List.sum_nil]
    · rw [smaOf_map_jnum]
      show some (([10, 10, 10, 10, 10, 16] : List ℚ).sum / (6 : ℕ)) = some 11
      norm_num [List.sum_cons, List.sum_nil]
    · rw [dropLast_map_jnum, smaOf_map_jnum]
      show some (([10, 10, 10] : List ℚ).sum / (3 : ℕ)) = some 10
      norm_num [List.sum_cons, List.sum_nil]
    · rw [dropLast_map_jnum, smaOf_map_jnum]
      show some (([10, 10, 10, 10, 10, 10] : List ℚ).sum / (6 : ℕ)) = some 10
      norm_num [List.sum_cons, List.sum_nil]
  rw [hev] at hto
  cases hto
  exact hr

/-- C7: a product whose history after this tick's append has fewer than 7
mid-prices gets the empty order list in the result this tick, while its
history entry is still updated with the appended value. -/
theorem insufficient_history_no_order
    (ds : List (String × OrderDepth)) (td : String)
    (m m2 : List (String × JValue)) (r : List (String × List Order))
    (p : String) (dp : OrderDepth) (mid : ℚ)
    (hobj : initTop td = JValue.jobj m)
    (hnd : (ds.map Prod.fst).Nodup)
    (hmem : (p, dp) ∈ ds)
    (hmid : midPrice dp = some mid)
    (hrl : runList (m, []) ds = some (m2, r))
    (hshort : (histOf m p ++ [JValue.jnum mid]).length < 7) :
    lookupA r p = some [] ∧
    lookupA m2 p = some (JValue.jarr (histOf m p ++ [JValue.jnum mid])) := by
  rcases runList_char ds m m2 r p dp mid hnd hmem hmid hrl with ⟨orders, hto, hr, hm⟩
  unfold tickOrders at hto
  rw [if_neg (by omega)] at hto
  cases hto
  exact ⟨hr, hm⟩

/-- C8: when the crossover condition holds for a product this tick but its
sell side is empty, no order is emitted: the product's result entry is the
empty list. -/
theorem crossover_without_sells_no_order
    (ds : List (String × OrderDepth)) (td : String)
    (m m2 : List (String × JValue)) (r : List (String × List Order))
    (p : String) (dp : OrderDepth) (mid ss sl ssp slp : ℚ)
    (hobj : initTop td = JValue.jobj m)
    (hnd : (ds.map Prod.fst).Nodup)
    (hmem : (p, dp) ∈ ds)
    (hmid : midPrice dp = some mid)
    (hrl : runList (m, []) ds = some (m2, r))
    (hlen : 7 ≤ (histOf m p ++ [JValue.jnum mid]).length)
    (hss : smaOf (histOf m p ++ [JValue.jnum mid]) 3 = some ss)
    (hsl : smaOf (histOf m p ++ [JValue.jnum mid]) 6 = some sl)
    (hssp : smaOf (histOf m p ++ [JValue.jnum mid]).dropLast 3 = some ssp)
    (hslp : smaOf (histOf m p ++ [JValue.jnum mid]).dropLast 6 = some slp)
    (hfire : ssp ≤ slp ∧ sl < ss)
    (hsell : dp.sell_orders = []) :
    lookupA r p = some [] := by
  rcases runList_char ds m m2 r p dp mid hnd hmem hmid hrl with ⟨orders, hto, hr, _⟩
  rw [tickOrders_eval p dp _ ss sl ssp slp hlen hss hsl hssp hslp] at hto
  rw [if_pos hfire, if_neg (fun hc => hc hsell)] at hto
  cases hto
  exact hr

/-- C5 (amended): the run never raises when the persisted-state string is
empty, unparseable, or parses to an object mapping products to arrays of
numbers (the schema the engine itself writes).  The original claim fails
for parseable strings of any other shape; see the counterexample. -/
theorem run_total_on_wellformed_state (state : TradingState)
    (h : state.traderData = "" ∨ json_loads state.traderData = none ∨
      ∃ m, json_loads state.traderData = some (JValue.jobj m) ∧ SchemaOK m) :
    (run state).isSome := by
  obtain ⟨depths, td⟩ := state
  dsimp only at h
  have hcase : ∃ m, initTop td = JValue.jobj m ∧ SchemaOK m := by
    by_cases he : td = ""
    · subst he
      exact ⟨[], by unfold initTop; rw [if_pos rfl],
        fun kv hkv => absurd hkv (List.not_mem_nil kv)⟩
    · rcases h with h | h | ⟨m, hm, hs⟩
      · exact absurd h he
      · exact ⟨[], by unfold initTop; rw [if_neg he, h],
          fun kv hkv => absurd hkv (List.not_mem_nil kv)⟩
      · exact ⟨m, by unfold initTop; rw [if_neg he, hm], hs⟩
  rcases hcase with ⟨m, hobj, hs⟩
  rcases runList_total depths (m, []) hs with ⟨⟨m2, res⟩, hrl, _⟩
  simp only [run, hobj, hrl, Option.isSome_some]

theorem ofD_digitsAux : ∀ fuel n, n ≤ fuel → ofD (digitsAux fuel n) = n := by
  intro fuel
  induction fuel with
  | zero =>
      intro n h
      have hn : n = 0 := Nat.le_zero.mp h
      subst hn
      rfl
  | succ f ih =>
      intro n h
      cases n with
      | zero => rfl
      | succ n2 =>
          have hdiv : (n2 + 1) / 10 ≤ f := by
            have := Nat.div_lt_self (Nat.succ_pos n2) (by norm_num : 1 < 10)
            omega
          show ofD ((n2 + 1) % 10 :: digitsAux f ((n2 + 1) / 10)) = n2 + 1
          unfold ofD
          simp only [List.foldr_cons]
          have h2 := ih ((n2 + 1) / 10) hdiv
          unfold ofD at h2
          rw [h2]
          exact Nat.mod_add_div (n2 + 1) 10

theorem digitsAux_lt : ∀ fuel n d, d ∈ digitsAux fuel n → d < 10 := by
  intro fuel
  induction fuel with
  | zero =>
      intro n d h
      cases h
  | succ f ih =>
      intro n d h
      cases n with
      | zero => cases h
      | succ n2 =>
          rcases List.mem_cons.mp h with h1 | h1
          · rw [h1]
            exact Nat.mod_lt _ (by norm_num)
          · exact ih _ _ h1

theorem digitsAux_length : ∀ fuel n k, n < 10 ^ k → (digitsAux fuel n).length ≤ k := by
  intro fuel
  induction fuel with
  | zero =>
      intro n k _
      simp [digitsAux]
  | succ f ih =>
      intro n k h
      cases n with
      | zero => simp [digitsAux]
      | succ n2 =>
          cases k with
          | zero =>
              rw [pow_zero] at h
              omega
          | succ k2 =>
              show ((n2 + 1) % 10 :: digitsAux f ((n2 + 1) / 10)).length ≤ k2 + 1
              simp only [List.length_cons]
              have hq : (n2 + 1) / 10 < 10 ^ k2 := by
                rw [Nat.div_lt_iff_lt_mul (by norm_num : (0:ℕ) < 10)]
                calc n2 + 1 < 10 ^ (k2 + 1) := h
                  _ = 10 ^ k2 * 10 := by ring
              have := ih ((n2 + 1) / 10) k2 hq
              omega

theorem digits10_ne_nil (n : ℕ) (h : n ≠ 0) : digits10 n ≠ [] := by
  cases n with
  | zero => exact absurd rfl h
  | succ n2 => simp [digits10, digitsAux]

theorem toDigit_digitChar (d : ℕ) (h : d < 10) : toDigit (digitChar d) = d := by
  interval_cases d <;> decide

theorem isDigitC_digitChar (d : ℕ) (h : d < 10) : isDigitC (digitChar d) = true := by
  interval_cases d <;> decide

theorem natVal_append_digit (xs : List Char) (c : Char) :
    natVal (xs ++ [c]) = 10 * natVal xs + toDigit c := by
  unfold natVal
  rw [List.foldl_append]
  rfl

theorem natVal_rev_digits (ds : List ℕ) (h : ∀ d ∈ ds, d < 10) :
    natVal ((ds.reverse).map digitChar) = ofD ds := by
  induction ds with
  | nil => rfl
  | cons d t ih =>
      simp only [List.reverse_cons, List.map_append, List.map_cons, List.map_nil]
      rw [natVal_append_digit, ih (fun x hx => h x (List.mem_cons_of_mem _ hx)),
        toDigit_digitChar d (h d (List.mem_cons_self _ _))]
      show 10 * ofD t + d = ofD (d :: t)
      unfold ofD
      simp only [List.foldr_cons]
      omega

theorem natVal_printNatC (n : ℕ) : natVal (printNatC n) = n := by
  unfold printNatC
  by_cases h : n = 0
  · rw [if_pos h, h]
    rfl
  · rw [if_neg h]
    unfold digits10
    rw [natVal_rev_digits _ (fun d hd => digitsAux_lt n n d hd)]
    exact ofD_digitsAux n n le_rfl

theorem printNatC_digits (n : ℕ) : ∀ c ∈ printNatC n, isDigitC c = true := by
  intro c hc
  unfold printNatC at hc
  by_cases h : n = 0
  · rw [if_pos h] at hc
    simp only [List.mem_singleton] at hc
    rw [hc]
    rfl
  · rw [if_neg h] at hc
    rcases List.mem_map.mp hc with ⟨d, hd, rfl⟩
    exact isDigitC_digitChar d (digitsAux_lt n n d (List.mem_reverse.mp hd))

theorem printNatC_ne_nil (n : ℕ) : printNatC n ≠ [] := by
  unfold printNatC
  by_cases h : n = 0
  · rw [if_pos h]
    simp
  · rw [if_neg h]
    intro hc
    have hl := congrArg List.length hc
    simp only [List.length_map, List.length_reverse, List.length_nil] at hl
    exact digits10_ne_nil n h (List.length_eq_zero.mp hl)

theorem printNatC_length_le (n k : ℕ) (h : n < 10 ^ k) (hk : 1 ≤ k) :
    (printNatC n).length ≤ k := by
  unfold printNatC
  by_cases h0 : n = 0
  · rw [if_pos h0]
    simpa using hk
  · rw [if_neg h0]
    simp only [List.length_map, List.length_reverse]
    exact digitsAux_length n n k h

theorem spanDigits_append (xs rest : List Char) (hx : ∀ c ∈ xs, isDigitC c = true)
    (hr : noDigitHead rest) : spanDigits (xs ++ rest) = (xs, rest) := by
  induction xs with
  | nil =>
      cases rest with
      | nil => rfl
      | cons c t =>
          unfold noDigitHead at hr
          simp [spanDigits, hr]
  | cons x xs2 ih =>
      have hx1 := hx x (List.mem_cons_self _ _)
      simp [spanDigits, hx1, ih (fun c hc => hx c (List.mem_cons_of_mem _ hc))]

theorem natVal_replicate_zero (j : ℕ) (l : List Char) :
    natVal (List.replicate j '0' ++ l) = natVal l := by
  induction j with
  | zero => rfl
  | succ j2 ih =>
      simp only [List.replicate_succ, List.cons_append]
      unfold natVal at ih ⊢
      simp only [List.foldl_cons]
      exact ih

theorem natVal_padZeros (l : List Char) (k : ℕ) : natVal (padZeros l k) = natVal l :=
  natVal_replicate_zero _ _

theorem padZeros_digits (l : List Char) (k : ℕ) (h : ∀ c ∈ l, isDigitC c = true) :
    ∀ c ∈ padZeros l k, isDigitC c = true := by
  intro c hc
  unfold padZeros at hc
  rcases List.mem_append.mp hc with hc | hc
  · rw [List.eq_of_mem_replicate hc]
    rfl
  · exact h c hc

theorem padZeros_length (l : List Char) (k : ℕ) (h : l.length ≤ k) :
    (padZeros l k).length = k := by
  unfold padZeros
  simp only [List.length_append, List.length_replicate]
  omega

theorem padZeros_ne_nil (l : List Char) (k : ℕ) (h : l ≠ []) : padZeros l k ≠ [] := by
  unfold padZeros
  intro hc
  rcases List.append_eq_nil.mp hc with ⟨_, h2⟩
  exact h h2

theorem noDigitHead_of_numStop (l : List Char) (h : numStop l) : noDigitHead l := by
  cases l with
  | nil => trivial
  | cons c t => exact h.1

theorem parseFrac_stop (l : List Char) (h : numStop l) : parseFrac l = some (0, 0, l) := by
  cases l with
  | nil => rfl
  | cons c t =>
      unfold numStop at h
      simp only [parseFrac]
      rw [if_neg h.2.1]

theorem parseExp_stop (l : List Char) (h : numStop l) : parseExp l = some (0, l) := by
  cases l with
  | nil => rfl
  | cons c t =>
      unfold numStop at h
      simp only [parseExp]
      rw [if_neg (fun hc => hc.elim h.2.2.1 h.2.2.2)]

theorem parseFrac_frac (fs rest : List Char) (hfs : ∀ c ∈ fs, isDigitC c = true)
    (hne : fs ≠ []) (hr : noDigitHead rest) :
    parseFrac ('.' :: (fs ++ rest)) = some (natVal fs, fs.length, rest) := by
  simp only [parseFrac, spanDigits_append fs rest hfs hr, if_true]
  rw [if_neg hne]

theorem pow10Exp_of_repr (q : ℚ) (h : DecimalRepr q) :
    ∃ k, pow10Exp q.den = some k ∧ q.den ∣ 10 ^ k := by
  unfold pow10Exp
  have hs : ((List.range (q.den + 1)).find? fun k => decide (q.den ∣ 10 ^ k)).isSome := by
    rw [List.find?_isSome]
    exact ⟨q.den, List.mem_range.mpr (Nat.lt_succ_self _), decide_eq_true h⟩
  rcases Option.isSome_iff_exists.mp hs with ⟨k, hk⟩
  refine ⟨k, hk, ?_⟩
  have hp := List.find?_some hk
  simp at hp
  exact hp

theorem decimal_base_eq (q : ℚ) (k : ℕ) (hdvd : q.den ∣ 10 ^ k) :
    ((q.num.natAbs * (10 ^ k / q.den) / 10 ^ k : ℕ) : ℚ) +
      ((q.num.natAbs * (10 ^ k / q.den) % 10 ^ k : ℕ) : ℚ) / (10 : ℚ) ^ k =
      (q.num.natAbs : ℚ) / q.den := by
  have hpk : (0 : ℕ) < 10 ^ k := pow_pos (by norm_num) k
  have hpkQ : ((10 : ℚ)) ^ k ≠ 0 := by positivity
  have hden : ((q.den : ℚ)) ≠ 0 := by
    exact_mod_cast q.den_pos.ne'
  have hmd : q.num.natAbs * (10 ^ k / q.den) * q.den = q.num.natAbs * 10 ^ k := by
    rw [mul_assoc, Nat.div_mul_cancel hdvd]
  have hnat : q.num.natAbs * (10 ^ k / q.den) / 10 ^ k * 10 ^ k +
      q.num.natAbs * (10 ^ k / q.den) % 10 ^ k = q.num.natAbs * (10 ^ k / q.den) := by
    rw [mul_comm (q.num.natAbs * (10 ^ k / q.den) / 10 ^ k) (10 ^ k)]
    exact Nat.div_add_mod _ _
  have key : ((q.num.natAbs * (10 ^ k / q.den) / 10 ^ k : ℕ) : ℚ) * (10 : ℚ) ^ k +
      ((q.num.natAbs * (10 ^ k / q.den) % 10 ^ k : ℕ) : ℚ) =
      ((q.num.natAbs * (10 ^ k / q.den) : ℕ) : ℚ) := by
    exact_mod_cast hnat
  have step1 : ((q.num.natAbs * (10 ^ k / q.den) / 10 ^ k : ℕ) : ℚ) +
      ((q.num.natAbs * (10 ^ k / q.den) % 10 ^ k : ℕ) : ℚ) / (10 : ℚ) ^ k =
      ((q.num.natAbs * (10 ^ k / q.den) : ℕ) : ℚ) / (10 : ℚ) ^ k := by
    rw [eq_div_iff hpkQ, add_mul, div_mul_cancel₀ _ hpkQ]
    exact key
  rw [step1, div_eq_div_iff hpkQ hden]
  exact_mod_cast hmd

theorem sign_abs_eq (q : ℚ) :
    (if q < 0 then -((q.num.natAbs : ℚ) / q.den) else ((q.num.natAbs : ℚ) / q.den)) = q := by
  have habs : ((q.num.natAbs : ℚ)) / q.den = |q| := by
    have h1 : |q| = |(q.num : ℚ) / (q.den : ℚ)| := by
      rw [Rat.num_div_den]
    rw [h1, abs_div]
    congr 1
    · rw [Int.cast_natAbs, Int.cast_abs]
    · exact (abs_of_pos (by exact_mod_cast q.den_pos)).symm
  by_cases h : q < 0
  · rw [if_pos h, habs, abs_of_neg h, neg_neg]
  · rw [if_neg h, habs, abs_of_nonneg (not_lt.mp h)]

theorem digit_ne (c d : Char) (hc : isDigitC c = true) (hd : isDigitC d = false) : c ≠ d := by
  intro e
  rw [e, hd] at hc
  cases hc

theorem parseNum_print (q : ℚ) (rest : List Char) (hq : DecimalRepr q) (hr : numStop rest) :
    parseNum (printQ q ++ rest) = some (q, rest) := by
  rcases pow10Exp_of_repr q hq with ⟨k, hk, hdvd⟩
  have hndh : noDigitHead rest := noDigitHead_of_numStop rest hr
  have habs := sign_abs_eq q
  by_cases h0 : k = 0
  · subst h0
    have hden1 : q.den = 1 := Nat.dvd_one.mp (by simpa using hdvd)
    have hpq : printQ q = (if q < 0 then ['-'] else []) ++ printNatC q.num.natAbs := by
      unfold printQ
      rw [hk]
      by_cases hneg : q < 0 <;> simp [hneg, hden1]
    have hfin : ((natVal (printNatC q.num.natAbs) : ℚ) + ((0 : ℕ) : ℚ) / (10 : ℚ) ^ (0 : ℕ)) =
        (q.num.natAbs : ℚ) / q.den := by
      rw [natVal_printNatC, hden1]
      simp
    rw [hpq]
    by_cases hneg : q < 0
    · rw [if_pos hneg]
      simp only [List.singleton_append, List.cons_append, List.append_assoc]
      simp only [parseNum, eq_self_iff_true, if_true, List.nil_append]
      try dsimp only
      rw [spanDigits_append _ _ (printNatC_digits _) hndh]
      try dsimp only
      rw [if_neg (printNatC_ne_nil _)]
      simp only [parseFrac_stop rest hr, parseExp_stop rest hr, eq_self_iff_true, if_true,
        Bool.false_eq_true, if_false, zpow_zero, mul_one, Option.some.injEq, Prod.mk.injEq]
      refine ⟨?_, trivial⟩
      rw [hfin]
      rw [if_pos hneg] at habs
      exact habs
    · rw [if_neg hneg]
      simp only [List.nil_append]
      obtain ⟨c0, t0, hct⟩ := List.exists_cons_of_ne_nil (printNatC_ne_nil q.num.natAbs)
      have hc0 : isDigitC c0 = true := by
        apply printNatC_digits q.num.natAbs
        rw [hct]
        exact List.mem_cons_self _ _
      rw [hct]
      simp only [List.cons_append]
      simp only [parseNum]
      rw [if_neg (digit_ne c0 '-' hc0 (by decide))]
      try dsimp only
      rw [← List.cons_append, ← hct]
      rw [spanDigits_append _ _ (printNatC_digits _) hndh]
      try dsimp only
      rw [if_neg (printNatC_ne_nil _)]
      simp only [parseFrac_stop rest hr, parseExp_stop rest hr, eq_self_iff_true, if_true,
        Bool.false_eq_true, if_false, zpow_zero, mul_one, Option.some.injEq, Prod.mk.injEq]
      refine ⟨?_, trivial⟩
      rw [hfin]
      rw [if_neg hneg] at habs
      exact habs
  · have hk1 : 1 ≤ k := Nat.one_le_iff_ne_zero.mpr h0
    have hmod : q.num.natAbs * (10 ^ k / q.den) % 10 ^ k < 10 ^ k :=
      Nat.mod_lt _ (pow_pos (by norm_num) k)
    have hfraclen : (printNatC (q.num.natAbs * (10 ^ k / q.den) % 10 ^ k)).length ≤ k :=
      printNatC_length_le _ k hmod hk1
    have hpq : printQ q = (if q < 0 then ['-'] else []) ++
        (printNatC (q.num.natAbs * (10 ^ k / q.den) / 10 ^ k) ++
          '.' :: padZeros (printNatC (q.num.natAbs * (10 ^ k / q.den) % 10 ^ k)) k) := by
      unfold printQ
      rw [hk]
      by_cases hneg : q < 0 <;> simp [hneg, h0]
    have hfrac : parseFrac ('.' ::
        (padZeros (printNatC (q.num.natAbs * (10 ^ k / q.den) % 10 ^ k)) k ++ rest)) =
        some (q.num.natAbs * (10 ^ k / q.den) % 10 ^ k, k, rest) := by
      rw [parseFrac_frac _ _ (padZeros_digits _ _ (printNatC_digits _))
        (padZeros_ne_nil _ _ (printNatC_ne_nil _)) hndh]
      rw [natVal_padZeros, natVal_printNatC, padZeros_length _ _ hfraclen]
    have hfin : ((natVal (printNatC (q.num.natAbs * (10 ^ k / q.den) / 10 ^ k)) : ℚ) +
        ((q.num.natAbs * (10 ^ k / q.den) % 10 ^ k : ℕ) : ℚ) / (10 : ℚ) ^ k) =
        (q.num.natAbs : ℚ) / q.den := by
      rw [natVal_printNatC]
      exact decimal_base_eq q k hdvd
    have hdot : noDigitHead ('.' ::
        (padZeros (printNatC (q.num.natAbs * (10 ^ k / q.den) % 10 ^ k)) k ++ rest)) := by
      show isDigitC '.' = false
      decide
    rw [hpq]
    by_cases hneg : q < 0
    · rw [if_pos hneg]
      simp only [List.singleton_append, List.cons_append, List.append_assoc]
      simp only [parseNum, eq_self_iff_true, if_true, List.nil_append]
      try dsimp only
      rw [spanDigits_append _ _ (printNatC_digits _) hdot]
      try dsimp only
      rw [if_neg (printNatC_ne_nil _)]
      simp only [hfrac, parseExp_stop rest hr, eq_self_iff_true, if_true,
        Bool.false_eq_true, if_false, zpow_zero, mul_one, Option.some.injEq, Prod.mk.injEq]
      refine ⟨?_, trivial⟩
      rw [hfin]
      rw [if_pos hneg] at habs
      exact habs
    · rw [if_neg hneg]
      simp only [List.nil_append, List.cons_append, List.append_assoc]
      obtain ⟨c0, t0, hct⟩ := List.exists_cons_of_ne_nil
        (printNatC_ne_nil (q.num.natAbs * (10 ^ k / q.den) / 10 ^ k))
      have hc0 : isDigitC c0 = true := by
        apply printNatC_digits
        rw [hct]
        exact List.mem_cons_self _ _
      rw [hct]
      simp only [List.cons_append]
      simp only [parseNum]
      rw [if_neg (digit_ne c0 '-' hc0 (by decide))]
      try dsimp only
      rw [← List.cons_append, ← hct]
      rw [spanDigits_append _ _ (printNatC_digits _) hdot]
      try dsimp only
      rw [if_neg (printNatC_ne_nil _)]
      simp only [hfrac, parseExp_stop rest hr, eq_self_iff_true, if_true,
        Bool.false_eq_true, if_false, zpow_zero, mul_one, Option.some.injEq, Prod.mk.injEq]
      refine ⟨?_, trivial⟩
      rw [hfin]
      rw [if_neg hneg] at habs
      exact habs

theorem mk_data (s : String) : String.mk s.data = s := by
  cases s
  rfl

theorem parseStrAux_step_esc (X : List Char) (a : List Char) :
    parseStrAux ('\\' :: X) a false = parseStrAux X a true := by
  simp [parseStrAux]

theorem parseStrAux_step_quote_esc (X : List Char) (a : List Char) :
    parseStrAux ('"' :: X) a true = parseStrAux X ('"' :: a) false := by
  simp [parseStrAux]

theorem parseStrAux_step_back_esc (X : List Char) (a : List Char) :
    parseStrAux ('\\' :: X) a true = parseStrAux X ('\\' :: a) false := by
  simp [parseStrAux]

theorem parseStrAux_step_plain (c : Char) (X : List Char) (a : List Char)
    (h1 : c ≠ '"') (h2 : c ≠ '\\') :
    parseStrAux (c :: X) a false = parseStrAux X (c :: a) false := by
  simp [parseStrAux, h1, h2]

theorem parseStrAux_escape : ∀ (l acc rest : List Char),
    parseStrAux (l.foldr (fun c a => escapeChar c ++ a) [] ++ '"' :: rest) acc false =
      some (String.mk (acc.reverse ++ l), rest) := by
  intro l
  induction l with
  | nil =>
      intro acc rest
      simp [parseStrAux]
  | cons c t ih =>
      intro acc rest
      simp only [List.foldr_cons, List.append_assoc]
      by_cases h1 : c = '"'
      · subst h1
        have hesc : escapeChar '"' = ['\\', '"'] := rfl
        rw [hesc]
        simp only [List.cons_append, List.nil_append]
        rw [parseStrAux_step_esc, parseStrAux_step_quote_esc, ih]
        simp
      · by_cases h2 : c = '\\'
        · subst h2
          have hesc : escapeChar '\\' = ['\\', '\\'] := rfl
          rw [hesc]
          simp only [List.cons_append, List.nil_append]
          rw [parseStrAux_step_esc, parseStrAux_step_back_esc, ih]
          simp
        · have hesc : escapeChar c = [c] := by simp [escapeChar, h1, h2]
          rw [hesc]
          simp only [List.cons_append, List.nil_append]
          rw [parseStrAux_step_plain c _ _ h1 h2, ih]
          simp

theorem parseStrAux_escapeStr (s : String) (rest : List Char) :
    parseStrAux (escapeStr s ++ '"' :: rest) [] false = some (s, rest) := by
  have h := parseStrAux_escape s.data [] rest
  simpa [escapeStr, mk_data] using h

theorem ws_false_of_digit (c : Char) (h : isDigitC c = true) : isWsC c = false := by
  have h1 : c ≠ ' ' := digit_ne c ' ' h (by decide)
  have h2 : c ≠ '\n' := digit_ne c '\n' h (by decide)
  have h3 : c ≠ '\t' := digit_ne c '\t' h (by decide)
  have h4 : c ≠ '\r' := digit_ne c '\r' h (by decide)
  simp [isWsC, h1, h2, h3, h4]

theorem skipWs_nows (c : Char) (t : List Char) (h : isWsC c = false) :
    skipWs (c :: t) = c :: t := by
  simp [skipWs, h]

theorem parseVal_ws (fuel : ℕ) (l : List Char) :
    parseVal fuel (' ' :: l) = parseVal fuel l := by
  cases fuel with
  | zero => rfl
  | succ f =>
      have hws : skipWs (' ' :: l) = skipWs l := by simp [skipWs, isWsC]
      simp only [parseVal, hws]

theorem parseElems_ws (fuel : ℕ) (l : List Char) :
    parseElems fuel (' ' :: l) = parseElems fuel l := by
  cases fuel with
  | zero => rfl
  | succ f => simp only [parseElems, parseVal_ws]

theorem parseMembs_ws (fuel : ℕ) (l : List Char) :
    parseMembs fuel (' ' :: l) = parseMembs fuel l := by
  cases fuel with
  | zero => rfl
  | succ f =>
      have hws : skipWs (' ' :: l) = skipWs l := by simp [skipWs, isWsC]
      simp only [parseMembs, hws]

theorem printNatC_head (M : ℕ) : ∃ c t, printNatC M = c :: t ∧ isDigitC c = true := by
  obtain ⟨c, t, h⟩ := List.exists_cons_of_ne_nil (printNatC_ne_nil M)
  refine ⟨c, t, h, ?_⟩
  apply printNatC_digits M
  rw [h]
  exact List.mem_cons_self _ _

theorem printQ_shape (q : ℚ) :
    ∃ c t, printQ q = c :: t ∧ (c = '-' ∨ isDigitC c = true) := by
  by_cases hneg : q < 0
  · have h : ∃ b, printQ q = '-' :: b := by
      unfold printQ
      rw [if_pos hneg]
      exact ⟨_, rfl⟩
    obtain ⟨b, hb⟩ := h
    exact ⟨'-', b, hb, Or.inl rfl⟩
  · have hbody : ∃ c t, printQ q = c :: t ∧ isDigitC c = true := by
      unfold printQ
      rw [if_neg hneg]
      cases hpe : pow10Exp q.den with
      | none =>
          exact printNatC_head q.num.natAbs
      | some k =>
          dsimp only
          by_cases h0 : k = 0
          · rw [if_pos h0]
            exact printNatC_head _
          · rw [if_neg h0]
            obtain ⟨c, t, hct, hc⟩ := printNatC_head
              (q.num.natAbs * (10 ^ k / q.den) / 10 ^ k)
            refine ⟨c, t ++ '.' :: padZeros (printNatC
              (q.num.natAbs * (10 ^ k / q.den) % 10 ^ k)) k, ?_, hc⟩
            rw [hct]
            rfl
    obtain ⟨c, t, hct, hc⟩ := hbody
    exact ⟨c, t, hct, Or.inr hc⟩

theorem parseVal_num (fuel : ℕ) (q : ℚ) (rest : List Char) (hq : DecimalRepr q)
    (hr : numStop rest) :
    parseVal (fuel + 1) (printQ q ++ rest) = some (.jnum q, rest) := by
  obtain ⟨c0, t0, hct, hc0⟩ := printQ_shape q
  have hws : isWsC c0 = false := by
    rcases hc0 with rfl | h
    · decide
    · exact ws_false_of_digit c0 h
  have hn : c0 ≠ 'n' := by
    rcases hc0 with rfl | h
    · decide
    · exact digit_ne c0 'n' h (by decide)
  have ht : c0 ≠ 't' := by
    rcases hc0 with rfl | h
    · decide
    · exact digit_ne c0 't' h (by decide)
  have hf : c0 ≠ 'f' := by
    rcases hc0 with rfl | h
    · decide
    · exact digit_ne c0 'f' h (by decide)
  have hquo : c0 ≠ '"' := by
    rcases hc0 with rfl | h
    · decide
    · exact digit_ne c0 '"' h (by decide)
  have hbrk : c0 ≠ '[' := by
    rcases hc0 with rfl | h
    · decide
    · exact digit_ne c0 '[' h (by decide)
  have hlb : c0 ≠ lbrace := by
    rcases hc0 with rfl | h
    · decide
    · exact digit_ne c0 lbrace h (by decide)
  rw [hct]
  simp only [List.cons_append]
  simp only [parseVal]
  rw [skipWs_nows c0 (t0 ++ rest) hws]
  dsimp only
  rw [if_neg hn, if_neg ht, if_neg hf, if_neg hquo, if_neg hbrk, if_neg hlb]
  rw [← List.cons_append, ← hct, parseNum_print q rest hq hr]
  rfl

theorem parseElems_cons_eq (fuel : ℕ) (l : List Char) :
    parseElems (fuel + 1) l =
      match parseVal fuel l with
      | none => none
      | some (v, r) =>
          match skipWs r with
          | [] => none
          | c :: r2 =>
              if c = ',' then (parseElems fuel r2).map fun er => (v :: er.1, er.2)
              else if c = ']' then some ([v], r2)
              else none := rfl

theorem parseMembs_cons_eq (fuel : ℕ) (l : List Char) :
    parseMembs (fuel + 1) l =
      match skipWs l with
      | [] => none
      | c :: r =>
          if c = '"' then
            match parseStrAux r [] false with
            | none => none
            | some (k, r1) =>
                match skipWs r1 with
                | [] => none
                | c2 :: r2 =>
                    if c2 = ':' then
                      match parseVal fuel r2 with
                      | none => none
                      | some (v, r3) =>
                          match skipWs r3 with
                          | [] => none
                          | c3 :: r4 =>
                              if c3 = ',' then
                                (parseMembs fuel r4).map fun mr => ((k, v) :: mr.1, mr.2)
                              else if c3 = rbrace then some ([(k, v)], r4)
                              else none
                    else none
          else none := rfl

theorem numStop_cons (c : Char) (l : List Char) (h1 : isDigitC c = false) (h2 : c ≠ '.')
    (h3 : c ≠ 'e') (h4 : c ≠ 'E') : numStop (c :: l) := by
  unfold numStop
  exact ⟨h1, h2, h3, h4⟩

theorem parseElems_print : ∀ (qs : List ℚ) (fuel : ℕ) (rest : List Char),
    qs ≠ [] → qs.length + 1 ≤ fuel → (∀ q ∈ qs, DecimalRepr q) →
    parseElems fuel (printList (qs.map .jnum) ++ ']' :: rest) =
      some (qs.map .jnum, rest) := by
  intro qs
  induction qs with
  | nil =>
      intro fuel rest hne
      exact absurd rfl hne
  | cons q qt ih =>
      intro fuel rest _ hfuel hrepr
      obtain ⟨f, rfl⟩ : ∃ f, fuel = f + 1 := ⟨fuel - 1, by omega⟩
      obtain ⟨f2, rfl⟩ : ∃ f2, f = f2 + 1 := by
        refine ⟨f - 1, ?_⟩
        simp only [List.length_cons] at hfuel
        omega
      have hq := hrepr q (List.mem_cons_self _ _)
      cases qt with
      | nil =>
          simp only [List.map_cons, List.map_nil]
          rw [show printList [JValue.jnum q] = printQ q from by simp [printList, printJ]]
          rw [parseElems_cons_eq]
          rw [parseVal_num f2 q (']' :: rest) hq
            (numStop_cons ']' rest (by decide) (by decide) (by decide) (by decide))]
          try dsimp only
          rw [skipWs_nows ']' rest (by decide)]
          try dsimp only
          rw [if_neg (by decide : ¬(']' : Char) = ','), if_pos rfl]
      | cons q2 qt2 =>
          have hpl : printList ((q :: q2 :: qt2).map JValue.jnum) =
              printQ q ++ ',' :: ' ' :: printList ((q2 :: qt2).map JValue.jnum) := by
            simp [printList, printJ]
          rw [hpl, List.append_assoc]
          simp only [List.cons_append]
          rw [parseElems_cons_eq]
          rw [parseVal_num f2 q _ hq
            (numStop_cons ',' _ (by decide) (by decide) (by decide) (by decide))]
          try dsimp only
          rw [skipWs_nows ',' _ (by decide)]
          try dsimp only
          rw [if_pos rfl, parseElems_ws]
          rw [ih (f2 + 1) rest (by simp) (by simp only [List.length_cons] at hfuel ⊢; omega)
            (fun x hx => hrepr x (List.mem_cons_of_mem _ hx))]
          rfl

theorem parseVal_arr (qs : List ℚ) (fuel : ℕ) (rest : List Char)
    (hfuel : qs.length + 2 ≤ fuel) (hrepr : ∀ q ∈ qs, DecimalRepr q) :
    parseVal fuel (printJ (.jarr (qs.map .jnum)) ++ rest) =
      some (.jarr (qs.map .jnum), rest) := by
  obtain ⟨f, rfl⟩ : ∃ f, fuel = f + 1 := ⟨fuel - 1, by omega⟩
  have hpj : printJ (.jarr (qs.map .jnum)) = '[' :: printList (qs.map .jnum) ++ [']'] := by
    simp [printJ]
  rw [hpj]
  simp only [List.cons_append, List.append_assoc, List.singleton_append]
  simp only [parseVal]
  rw [skipWs_nows '[' _ (by decide)]
  try dsimp only
  rw [if_neg (by decide : ¬('[' : Char) = 'n'), if_neg (by decide : ¬('[' : Char) = 't'),
    if_neg (by decide : ¬('[' : Char) = 'f'), if_neg (by decide : ¬('[' : Char) = '"'),
    if_pos rfl]
  cases qs with
  | nil =>
      simp only [List.map_nil]
      rw [show printList ([] : List JValue) = [] from by simp [printList]]
      simp only [List.nil_append]
      rw [skipWs_nows ']' rest (by decide)]
      try dsimp only
      rw [if_pos rfl]
  | cons q qt =>
      obtain ⟨c0, t0, hct, hc0⟩ := printQ_shape q
      have hhead : ∃ T, printList ((q :: qt).map JValue.jnum) = c0 :: T := by
        cases qt with
        | nil => exact ⟨t0, by simp [printList, printJ, hct]⟩
        | cons q2 qt2 =>
            refine ⟨t0 ++ ',' :: ' ' :: printList ((q2 :: qt2).map JValue.jnum), ?_⟩
            simp [printList, printJ, hct]
      obtain ⟨T, hT⟩ := hhead
      have hws : isWsC c0 = false := by
        rcases hc0 with rfl | hdg
        · decide
        · exact ws_false_of_digit c0 hdg
      have hnb : c0 ≠ ']' := by
        rcases hc0 with rfl | hdg
        · decide
        · exact digit_ne c0 ']' hdg (by decide)
      rw [hT]
      simp only [List.cons_append]
      rw [skipWs_nows c0 _ hws]
      try dsimp only
      rw [if_neg hnb]
      rw [← List.cons_append, ← hT]
      simp only [List.nil_append]
      rw [parseElems_print (q :: qt) f rest (by simp)
        (by simp only [List.length_cons] at hfuel ⊢; omega) hrepr]
      rfl

theorem parseMembs_print : ∀ (h : List (String × List ℚ)) (fuel : ℕ) (rest : List Char),
    h ≠ [] → histFuel h + 1 ≤ fuel →
    (∀ kv ∈ h, ∀ q ∈ kv.2, DecimalRepr q) →
    parseMembs fuel (printMembers (histToJ h) ++ rbrace :: rest) = some (histToJ h, rest) := by
  intro h
  induction h with
  | nil =>
      intro fuel rest hne
      exact absurd rfl hne
  | cons kv t ih =>
      intro fuel rest _ hfuel hrepr
      obtain ⟨k, qs⟩ := kv
      have hfc : histFuel ((k, qs) :: t) = qs.length + 3 + histFuel t := rfl
      obtain ⟨f, rfl⟩ : ∃ f, fuel = f + 1 := ⟨fuel - 1, by omega⟩
      have hq : ∀ x ∈ qs, DecimalRepr x := fun x hx => hrepr (k, qs) (List.mem_cons_self _ _) x hx
      have hfa : qs.length + 2 ≤ f := by
        rw [hfc] at hfuel
        omega
      cases t with
      | nil =>
          have hpm : printMembers (histToJ [(k, qs)]) =
              '"' :: (escapeStr k ++ '"' :: ':' :: ' ' :: printJ (.jarr (qs.map .jnum))) := by
            simp [histToJ, printMembers]
          rw [hpm]
          simp only [List.cons_append, List.append_assoc]
          rw [parseMembs_cons_eq]
          rw [skipWs_nows '"' _ (by decide)]
          try dsimp only
          rw [if_pos rfl]
          rw [parseStrAux_escapeStr k _]
          try dsimp only
          rw [skipWs_nows ':' _ (by decide)]
          try dsimp only
          rw [if_pos rfl]
          rw [parseVal_ws]
          rw [parseVal_arr qs f _ hfa hq]
          try dsimp only
          rw [skipWs_nows rbrace rest (by decide)]
          try dsimp only
          rw [if_neg (by decide : ¬rbrace = ','), if_pos rfl]
          simp [histToJ]
      | cons kv2 t2 =>
          have hpm : printMembers (histToJ ((k, qs) :: kv2 :: t2)) =
              '"' :: (escapeStr k ++ '"' :: ':' :: ' ' :: printJ (.jarr (qs.map .jnum)) ++
                ',' :: ' ' :: printMembers (histToJ (kv2 :: t2))) := by
            simp [histToJ, printMembers]
          rw [hpm]
          simp only [List.cons_append, List.append_assoc]
          rw [parseMembs_cons_eq]
          rw [skipWs_nows '"' _ (by decide)]
          try dsimp only
          rw [if_pos rfl]
          rw [parseStrAux_escapeStr k _]
          try dsimp only
          rw [skipWs_nows ':' _ (by decide)]
          try dsimp only
          rw [if_pos rfl]
          rw [parseVal_ws]
          rw [parseVal_arr qs f _ hfa hq]
          try dsimp only
          rw [skipWs_nows ',' _ (by decide)]
          try dsimp only
          rw [if_pos rfl]
          rw [parseMembs_ws]
          rw [ih f rest (by simp) (by rw [hfc] at hfuel; omega)
            (fun x hx => hrepr x (List.mem_cons_of_mem _ hx))]
          simp [histToJ]

theorem storeA_of_lookup_none {α : Type _} (m : List (String × α)) (k : String) (v : α)
    (h : lookupA m k = none) : storeA m k v = m ++ [(k, v)] := by
  induction m with
  | nil => rfl
  | cons kw t ih =>
      obtain ⟨k2, w⟩ := kw
      by_cases hk : k2 = k
      · subst hk
        simp [lookupA] at h
      · simp only [lookupA, if_neg hk] at h
        simp [storeA, hk, ih h]

theorem lookupA_append_none {α : Type _} (a b : List (String × α)) (k : String)
    (h : lookupA a k = none) : lookupA (a ++ b) k = lookupA b k := by
  induction a with
  | nil => rfl
  | cons kw t ih =>
      obtain ⟨k2, w⟩ := kw
      by_cases hk : k2 = k
      · subst hk
        simp [lookupA] at h
      · simp only [lookupA, if_neg hk] at h
        simp only [List.cons_append, lookupA, if_neg hk]
        exact ih h

theorem dictOf_go (ms : List (String × JValue)) :
    ∀ acc, ((ms.map Prod.fst).Nodup) → (∀ kv ∈ ms, lookupA acc kv.1 = none) →
    ms.foldl (fun d kv => storeA d kv.1 kv.2) acc = acc ++ ms := by
  induction ms with
  | nil =>
      intro acc _ _
      simp
  | cons kv t ih =>
      intro acc hnd hdisj
      obtain ⟨k, v⟩ := kv
      simp only [List.map_cons, List.nodup_cons] at hnd
      simp only [List.foldl_cons]
      rw [storeA_of_lookup_none acc k v (hdisj (k, v) (List.mem_cons_self _ _))]
      rw [ih (acc ++ [(k, v)]) hnd.2]
      · simp
      · intro kv2 hkv2
        have hk2 : kv2.1 ≠ k := by
          intro he
          apply hnd.1
          rw [← he]
          exact List.mem_map_of_mem Prod.fst hkv2
        rw [lookupA_append_none acc _ _ (hdisj kv2 (List.mem_cons_of_mem _ hkv2))]
        simp only [lookupA]
        exact if_neg fun he => hk2 he.symm

theorem dictOfMembers_nodup (ms : List (String × JValue))
    (hnd : (ms.map Prod.fst).Nodup) : dictOfMembers ms = ms := by
  unfold dictOfMembers
  rw [dictOf_go ms [] hnd (fun _ _ => rfl)]
  simp

theorem histToJ_keys (h : List (String × List ℚ)) :
    (histToJ h).map Prod.fst = h.map Prod.fst := by
  induction h with
  | nil => rfl
  | cons kv t ih => simp [histToJ, ih]

theorem parseVal_hist (h : List (String × List ℚ)) (fuel : ℕ) (rest : List Char)
    (hfuel : histFuel h + 2 ≤ fuel)
    (hnd : (h.map Prod.fst).Nodup)
    (hrepr : ∀ kv ∈ h, ∀ q ∈ kv.2, DecimalRepr q) :
    parseVal fuel (printJ (.jobj (histToJ h)) ++ rest) = some (.jobj (histToJ h), rest) := by
  obtain ⟨f, rfl⟩ : ∃ f, fuel = f + 1 := ⟨fuel - 1, by omega⟩
  have hpj : printJ (.jobj (histToJ h)) = lbrace :: printMembers (histToJ h) ++ [rbrace] := by
    simp [printJ]
  rw [hpj]
  simp only [List.cons_append, List.append_assoc, List.singleton_append]
  simp only [parseVal]
  rw [skipWs_nows lbrace _ (by decide)]
  try dsimp only
  rw [if_neg (by decide : ¬lbrace = 'n'), if_neg (by decide : ¬lbrace = 't'),
    if_neg (by decide : ¬lbrace = 'f'), if_neg (by decide : ¬lbrace = '"'),
    if_neg (by decide : ¬lbrace = '['), if_pos rfl]
  cases h with
  | nil =>
      rw [show printMembers (histToJ []) = [] from by simp [histToJ, printMembers]]
      simp only [List.nil_append]
      rw [skipWs_nows rbrace rest (by decide)]
      try dsimp only
      rw [if_pos rfl]
      rfl
  | cons kv t =>
      have hhead : ∃ T, printMembers (histToJ (kv :: t)) = '"' :: T := by
        obtain ⟨k, qs⟩ := kv
        cases t with
        | nil =>
            exact ⟨escapeStr k ++ '"' :: ':' :: ' ' :: printJ (.jarr (qs.map .jnum)),
              by simp [histToJ, printMembers]⟩
        | cons kv2 t2 =>
            exact ⟨escapeStr k ++ '"' :: ':' :: ' ' :: printJ (.jarr (qs.map .jnum)) ++
              ',' :: ' ' :: printMembers (histToJ (kv2 :: t2)),
              by simp [histToJ, printMembers]⟩
      obtain ⟨T, hT⟩ := hhead
      rw [hT]
      simp only [List.cons_append]
      rw [skipWs_nows '"' _ (by decide)]
      try dsimp only
      rw [if_neg (by decide : ¬('"' : Char) = rbrace)]
      rw [← List.cons_append, ← hT]
      simp only [List.nil_append]
      rw [parseMembs_print (kv :: t) f rest (by simp)
        (by have : histFuel (kv :: t) + 2 ≤ f + 1 := hfuel; omega) hrepr]
      show some (JValue.jobj (dictOfMembers (histToJ (kv :: t))), rest) =
        some (JValue.jobj (histToJ (kv :: t)), rest)
      rw [dictOfMembers_nodup _ (by rw [histToJ_keys]; exact hnd)]

theorem printQ_length_pos (q : ℚ) : 1 ≤ (printQ q).length := by
  obtain ⟨c, t, hct, _⟩ := printQ_shape q
  rw [hct]
  simp

theorem printList_num_len (qs : List ℚ) :
    qs.length ≤ (printList (qs.map JValue.jnum)).length + 1 := by
  induction qs with
  | nil => simp
  | cons q qt ih =>
      cases qt with
      | nil =>
          have := printQ_length_pos q
          have hpl : printList ([q].map JValue.jnum) = printQ q := by
            simp [printList, printJ]
          rw [hpl]
          simp only [List.length_cons, List.length_nil]
          omega
      | cons q2 qt2 =>
          have hpl : printList ((q :: q2 :: qt2).map JValue.jnum) =
              printQ q ++ ',' :: ' ' :: printList ((q2 :: qt2).map JValue.jnum) := by
            simp [printList, printJ]
          rw [hpl]
          have := printQ_length_pos q
          simp only [List.length_append, List.length_cons]
          simp only [List.length_cons] at ih ⊢
          omega

theorem printMembers_len (h : List (String × List ℚ)) :
    histFuel h ≤ (printMembers (histToJ h)).length := by
  induction h with
  | nil => simp [histFuel]
  | cons kv t ih =>
      obtain ⟨k, qs⟩ := kv
      have hfc : histFuel ((k, qs) :: t) = qs.length + 3 + histFuel t := rfl
      have harr : (printJ (.jarr (qs.map JValue.jnum))).length =
          (printList (qs.map JValue.jnum)).length + 2 := by
        rw [show printJ (.jarr (qs.map JValue.jnum)) =
          '[' :: printList (qs.map JValue.jnum) ++ [']'] from by simp [printJ]]
        simp
      have hlst := printList_num_len qs
      cases t with
      | nil =>
          have hpm : printMembers (histToJ [(k, qs)]) =
              '"' :: (escapeStr k ++ '"' :: ':' :: ' ' :: printJ (.jarr (qs.map .jnum))) := by
            simp [histToJ, printMembers]
          rw [hfc, hpm]
          simp only [List.length_cons, List.length_append]
          rw [show histFuel ([] : List (String × List ℚ)) = 0 from rfl]
          omega
      | cons kv2 t2 =>
          have hpm : printMembers (histToJ ((k, qs) :: kv2 :: t2)) =
              '"' :: (escapeStr k ++ '"' :: ':' :: ' ' :: printJ (.jarr (qs.map .jnum)) ++
                ',' :: ' ' :: printMembers (histToJ (kv2 :: t2))) := by
            simp [histToJ, printMembers]
          rw [hfc, hpm]
          simp only [List.length_cons, List.length_append]
          omega

theorem loads_dumps (h : List (String × List ℚ))
    (hnd : (h.map Prod.fst).Nodup)
    (hrepr : ∀ kv ∈ h, ∀ q ∈ kv.2, DecimalRepr q) :
    json_loads (json_dumps (JValue.jobj (histToJ h))) =
      some (JValue.jobj (histToJ h)) := by
  unfold json_dumps json_loads
  have hdata : (String.mk (printJ (JValue.jobj (histToJ h)))).data
      = printJ (JValue.jobj (histToJ h)) := rfl
  rw [hdata]
  have hlen2 : (printJ (JValue.jobj (histToJ h))).length =
      (printMembers (histToJ h)).length + 2 := by
    rw [show printJ (JValue.jobj (histToJ h)) =
      lbrace :: printMembers (histToJ h) ++ [rbrace] from by simp [printJ]]
    simp
  have hlen : histFuel h + 2 ≤ (printJ (JValue.jobj (histToJ h))).length + 1 := by
    have h1 := printMembers_len h
    omega
  have hp := parseVal_hist h ((printJ (JValue.jobj (histToJ h))).length + 1) [] hlen hnd hrepr
  rw [List.append_nil] at hp
  rw [hp]
  rfl

/-- C9: serializing a history mapping with the engine's `json.dumps` and
immediately deserializing it with the engine's `json.loads` reproduces the
identical mapping: same products, same value sequences, same order.  The
product keys are assumed distinct and the mid-prices finite decimals, which
covers every mapping the engine itself writes. -/
theorem state_roundtrip (h : List (String × List ℚ))
    (hnd : (h.map Prod.fst).Nodup)
    (hrepr : ∀ kv ∈ h, ∀ q ∈ kv.2, DecimalRepr q) :
    json_loads (json_dumps (JValue.jobj (histToJ h))) =
      some (JValue.jobj (histToJ h)) :=
  loads_dumps h hnd hrepr

/-- C9 witness: the mapping sending product A to the sequence [10, 16]
round-trips through the engine's serialization unchanged. -/
theorem state_roundtrip_witness :
    json_loads (json_dumps (JValue.jobj (histToJ [("A", [10, 16])]))) =
      some (JValue.jobj (histToJ [("A", [10, 16])])) :=
  state_roundtrip [("A", [10, 16])] (by decide) (by decide)

/-- C5 counterexample: the state string of `tdBad` parses to an object that
maps product A to the number 0, yet the run on a snapshot whose book for A
has a derivable mid-price aborts (the Python `.append` on the non-list
history value raises an uncaught AttributeError), refuting totality for
arbitrary persisted-state strings. -/
theorem run_aborts_on_nonlist_history_value :
    run ⟨[("A", bookBoth)], tdBad⟩ = none := rfl

theorem hSix_histToJ : histToJ [("A", [10, 10, 10, 10, 10, 10])] = mSix := by
  simp [histToJ, mSix]

theorem loads_tdSixD : json_loads tdSixD = some (JValue.jobj mSix) := by
  unfold tdSixD
  rw [← hSix_histToJ]
  exact loads_dumps [("A", [10, 10, 10, 10, 10, 10])] (by decide) (by decide)

theorem tdSixD_ne_empty : tdSixD ≠ "" := by
  intro h
  have h2 : tdSixD.data = [] := by rw [h]
  have h3 : tdSixD.data = lbrace :: (printMembers mSix ++ [rbrace]) := by
    show (String.mk (printJ (JValue.jobj mSix))).data = _
    simp [printJ]
  rw [h3] at h2
  cases h2

theorem initTop_tdSixD : initTop tdSixD = JValue.jobj mSix := by
  unfold initTop
  rw [if_neg tdSixD_ne_empty, loads_tdSixD]

theorem schemaOK_mSix : SchemaOK mSix := by
  intro kv hkv
  simp only [mSix, List.mem_singleton] at hkv
  subst hkv
  exact ⟨[10, 10, 10, 10, 10, 10], rfl⟩

theorem mid_bookCross : midPrice bookCross = some 16 := by
  simp [midPrice, bookCross, maxKey, minKey]
  norm_num

theorem mid_bookBoth : midPrice bookBoth = some 11 := by
  simp [midPrice, bookBoth, maxKey, minKey]
  norm_num

theorem mid_bookBuyOnly : midPrice bookBuyOnly = some 16 := by
  simp [midPrice, bookBuyOnly, maxKey, minKey]

theorem sma3_six : smaOf (histOf mSix "A" ++ [JValue.jnum 16]) 3 = some 12 := by
  rw [show histOf mSix "A" ++ [JValue.jnum 16] =
    ([10, 10, 10, 10, 10, 10, 16] : List ℚ).map JValue.jnum from rfl]
  rw [smaOf_map_jnum]
  show some (([10, 10, 16] : List ℚ).sum / (3 : ℕ)) = some 12
  norm_num [List.sum_cons, List.sum_nil]

theorem sma6_six : smaOf (histOf mSix "A" ++ [JValue.jnum 16]) 6 = some 11 := by
  rw [show histOf mSix "A" ++ [JValue.jnum 16] =
    ([10, 10, 10, 10, 10, 10, 16] : List ℚ).map JValue.jnum from rfl]
  rw [smaOf_map_jnum]
  show some (([10, 10, 10, 10, 10, 16] : List ℚ).sum / (6 : ℕ)) = some 11
  norm_num [List.sum_cons, List.sum_nil]

theorem sma3p_six : smaOf (histOf mSix "A" ++ [JValue.jnum 16]).dropLast 3 = some 10 := by
  rw [show histOf mSix "A" ++ [JValue.jnum 16] =
    ([10, 10, 10, 10, 10, 10, 16] : List ℚ).map JValue.jnum from rfl]
  rw [dropLast_map_jnum, smaOf_map_jnum]
  show some (([10, 10, 10] : List ℚ).sum / (3 : ℕ)) = some 10
  norm_num [List.sum_cons, List.sum_nil]

theorem sma6p_six : smaOf (histOf mSix "A" ++ [JValue.jnum 16]).dropLast 6 = some 10 := by
  rw [show histOf mSix "A" ++ [JValue.jnum 16] =
    ([10, 10, 10, 10, 10, 10, 16] : List ℚ).map JValue.jnum from rfl]
  rw [dropLast_map_jnum, smaOf_map_jnum]
  show some (([10, 10, 10, 10, 10, 10] : List ℚ).sum / (6 : ℕ)) = some 10
  norm_num [List.sum_cons, List.sum_nil]

theorem tick_cross : tickOrders "A" bookCross (histOf mSix "A" ++ [JValue.jnum 16]) =
    some [⟨"A", 18, 10⟩] := by
  rw [tickOrders_eval "A" bookCross _ 12 11 10 10 (by decide) sma3_six sma6_six
    sma3p_six sma6p_six]
  rw [if_pos (by norm_num : (10 : ℚ) ≤ 10 ∧ (11 : ℚ) < 12),
    if_pos (by simp [bookCross] : bookCross.sell_orders ≠ [])]
  rfl

theorem tick_buyonly : tickOrders "A" bookBuyOnly (histOf mSix "A" ++ [JValue.jnum 16]) =
    some [] := by
  rw [tickOrders_eval "A" bookBuyOnly _ 12 11 10 10 (by decide) sma3_six sma6_six
    sma3p_six sma6p_six]
  rw [if_pos (by norm_num : (10 : ℚ) ≤ 10 ∧ (11 : ℚ) < 12),
    if_neg (by simp [bookBuyOnly] : ¬bookBuyOnly.sell_orders ≠ [])]

theorem runList_six : runList (mSix, []) [("A", bookCross)] = some (m2Six, rSix) := by
  rw [runList_cons, procOne_eq (mSix, []) ("A", bookCross) 16 mid_bookCross
    (Or.inr ⟨([10, 10, 10, 10, 10, 10] : List ℚ).map JValue.jnum, rfl⟩)]
  rw [show histOf (mSix, ([] : List (String × List Order))).1 "A" = histOf mSix "A" from rfl]
  rw [tick_cross]
  rfl

theorem runList_buyonly : runList (mSix, []) [("A", bookBuyOnly)] =
    some (m2Six, [("A", [])]) := by
  rw [runList_cons, procOne_eq (mSix, []) ("A", bookBuyOnly) 16 mid_bookBuyOnly
    (Or.inr ⟨([10, 10, 10, 10, 10, 10] : List ℚ).map JValue.jnum, rfl⟩)]
  rw [show histOf (mSix, ([] : List (String × List Order))).1 "A" = histOf mSix "A" from rfl]
  rw [tick_buyonly]
  rfl

theorem runList_one : runList (([] : List (String × JValue)), []) [("A", bookBoth)] =
    some ([("A", JValue.jarr [JValue.jnum 11])], [("A", [])]) := by
  rw [runList_cons, procOne_eq ([], []) ("A", bookBoth) 11 mid_bookBoth (Or.inl rfl)]
  rfl

/-- C10 witness: the run on an empty snapshot with an empty state returns
the triple whose conversion factor is 1. -/
theorem conversions_always_one_witness :
    (([], 1, json_dumps (JValue.jobj [])) :
      List (String × List Order) × ℤ × String).2.1 = 1 :=
  conversions_always_one ⟨[], ""⟩ ([], 1, json_dumps (JValue.jobj [])) rfl

/-- C4 witness: the unparseable state string "x" recovers to the empty
history: the run equals the run on the empty state string, which returns. -/
theorem malformed_state_recovery_witness :
    run ⟨[("A", bookBoth)], "x"⟩ = run ⟨[("A", bookBoth)], ""⟩ ∧
      (run (⟨[("A", bookBoth)], ""⟩ : TradingState)).isSome :=
  malformed_state_recovery [("A", bookBoth)] "x" (Or.inr rfl)

/-- C3 witness: on the six-tens state and the crossing book the run returns
the firing result and serializes the history extended by the new mid 16. -/
theorem history_growth_invariant_witness :
    run ⟨[("A", bookCross)], tdSixD⟩ = some (rSix, 1, json_dumps (JValue.jobj m2Six)) :=
  (history_growth_invariant [("A", bookCross)] tdSixD mSix m2Six rSix
    initTop_tdSixD (by simp) runList_six).2.2.2

/-- C1 witness: with history `[10,10,10,10,10,10,16]` the SMAs are 12, 11,
10, 10, the crossover fires, and product A's result entry is the one buy
order at ask 18 of size 10. -/
theorem sma_crossover_order_characterization_witness :
    lookupA rSix "A" =
      some (if (10 : ℚ) ≤ 10 ∧ (11 : ℚ) < 12 then
        if bookCross.sell_orders ≠ [] then [⟨"A", minKey bookCross.sell_orders, 10⟩] else []
      else []) ∧
    run ⟨[("A", bookCross)], tdSixD⟩ = some (rSix, 1, json_dumps (JValue.jobj m2Six)) :=
  sma_crossover_order_characterization [("A", bookCross)] tdSixD mSix m2Six rSix "A"
    bookCross 16 12 11 10 10 initTop_tdSixD (by simp) (by simp) mid_bookCross runList_six
    (by decide) sma3_six sma6_six sma3p_six sma6p_six

/-- C6 witness: the literal scenario — history six tens, new mid 16, sell
side resting at 18 — emits exactly the one buy order (A, 18, 10). -/
theorem literal_crossover_scenario_fires_witness :
    lookupA rSix "A" = some [⟨"A", minKey bookCross.sell_orders, 10⟩] :=
  literal_crossover_scenario_fires [("A", bookCross)] tdSixD mSix m2Six rSix "A" bookCross
    initTop_tdSixD (by simp) (by simp) rfl mid_bookCross (by simp [bookCross]) runList_six

/-- C7 witness: on an empty incoming history the appended history has one
entry, so product A gets the empty order list while its history entry is
written. -/
theorem insufficient_history_no_order_witness :
    lookupA [("A", ([] : List Order))] "A" = some [] ∧
    lookupA [("A", JValue.jarr [JValue.jnum 11])] "A" =
      some (JValue.jarr (histOf [] "A" ++ [JValue.jnum 11])) :=
  insufficient_history_no_order [("A", bookBoth)] "" [] [("A", JValue.jarr [JValue.jnum 11])]
    [("A", [])] "A" bookBoth 11 rfl (by simp) (by simp) mid_bookBoth runList_one (by decide)

/-- C8 witness: the crossover fires on the six-tens history with new mid 16,
but the buy-only book has no sell orders, so product A's result entry is
the empty list. -/
theorem crossover_without_sells_no_order_witness :
    lookupA [("A", ([] : List Order))] "A" = some [] :=
  crossover_without_sells_no_order [("A", bookBuyOnly)] tdSixD mSix m2Six [("A", [])] "A"
    bookBuyOnly 16 12 11 10 10 initTop_tdSixD (by simp) (by simp) mid_bookBuyOnly
    runList_buyonly (by decide) sma3_six sma6_six sma3p_six sma6p_six
    (by norm_num) rfl

/-- C5 witness (amended form): a state string the engine itself serialized
parses back to a schema-valid object, and the run on it returns. -/
theorem run_total_on_wellformed_state_witness :
    (run (⟨[("A", bookBoth)], tdSixD⟩ : TradingState)).isSome :=
  run_total_on_wellformed_state ⟨[("A", bookBoth)], tdSixD⟩
    (Or.inr (Or.inr ⟨mSix, loads_tdSixD, schemaOK_mSix⟩))

end Squidward
